import Mathlib

/-! chia_transfer: destination selection and bounded transfer orchestration.

A shallow embedding of `src/main.go`.

* the volume registry `DstPathMap` (a Go `map[string]bool`) is an association
  list with one entry per key;
* the in-flight source set `onWorkingSrcMap` (a Go `map[string]struct{}`) is a
  list of names;
* the slot channel `threadChan` (a buffered `chan struct{}`) is its capacity and
  the number of buffered tokens;
* the goroutines started by `go startCopy(...)` are the list `workers`;
* the file system resolves a path string to a directory entry and an entry to
  a numbered file, so that two paths can be aliases; the results of the system
  calls whose errors the code tests are given by an environment record.
-/

namespace ChiaTransfer

/-! ## Go maps and sets -/

/-- The Go read `m[k]` with the comma-ok flag: the value stored under `k`, if any. -/
def mapGet : List (String × Bool) → String → Option Bool
  | [], _ => none
  | (k, v) :: rest, key => if k = key then some v else mapGet rest key

/-- The keys of a Go map. -/
def mapKeys (m : List (String × Bool)) : List String := m.map Prod.fst

/-- The Go assignment `m[k] = v`: overwrite the entry of `k`, or add one. -/
def mapSet : List (String × Bool) → String → Bool → List (String × Bool)
  | [], key, val => [(key, val)]
  | (k, v) :: rest, key, val =>
    if k = key then (k, val) :: rest else (k, v) :: mapSet rest key val

/-- The Go assignment `s[name] = struct{}{}` on a `map[string]struct{}`. -/
def setInsert (s : List String) (name : String) : List String :=
  if name ∈ s then s else name :: s

/-- The Go statement `delete(s, name)`. -/
def setDelete (s : List String) (name : String) : List String :=
  s.filter (fun n => decide (n ≠ name))

/-! ## Shared state -/

/-- One goroutine running `startCopy(src, dst, dstDir, srcName, threadChan)`. -/
structure Worker where
  src : String
  dst : String
  dstDir : String
  srcName : String
deriving DecidableEq, Repr

/-- A buffered channel of `struct{}`: `cap(ch)` and `len(ch)`. -/
structure Chan where
  cap : Nat
  len : Nat
deriving DecidableEq, Repr

/-- The non-blocking send of lines 149-158: `some` is the `case threadChan <- struct{}{}`
branch, `none` the `default` branch. -/
def Chan.trySend (ch : Chan) : Option Chan :=
  if ch.len < ch.cap then some { ch with len := ch.len + 1 } else none

/-- The blocking receive `<-threadChan` of line 214: `none` when the channel is
empty, in which case the receiver does not proceed. -/
def Chan.recv (ch : Chan) : Option Chan :=
  if 0 < ch.len then some { ch with len := ch.len - 1 } else none

/-- The shared bookkeeping state of the program. -/
structure State where
  DstPathMap : List (String × Bool)
  onWorkingSrcMap : List String
  threadChan : Chan
  workers : List Worker
deriving DecidableEq, Repr

/-- The loop of `initDstPathSingleton` (lines 245-247) over `cfg.FinalDirs`, started
on the empty global map. -/
def initDstPathSingleton (finalDirs : List String) : List (String × Bool) :=
  finalDirs.foldl (fun m v => mapSet m v false) []

/-- The state in which `main` enters its round loop: the registry built by
`initDstPathSingleton`, an empty in-flight set, `threadChan` made with capacity
`len(dstPathSingleton.DstPathMap)` (line 81), and no goroutine. -/
def initState (finalDirs : List String) : State :=
  { DstPathMap := initDstPathSingleton finalDirs
    onWorkingSrcMap := []
    threadChan := { cap := (initDstPathSingleton finalDirs).length, len := 0 }
    workers := [] }

/-! ## Free-space query -/

/-- The two fields of `syscall.Statfs_t` that the code reads: `Bavail` is a
`uint64`, `Bsize` an `int64`. -/
structure Statfs_t where
  Bavail : Nat
  Bsize : Int
deriving DecidableEq, Repr

/-- The Go conversion `uint64(x)` of a signed 64-bit value. -/
def toUint64 (x : Int) : Nat := (x % 2 ^ 64).toNat

/-- The content of `stat` after `_ = syscall.Statfs(p, stat)` on a fresh
`new(syscall.Statfs_t)`: the zero value when the call fails. -/
def statAfter (Statfs : String → Option Statfs_t) (p : String) : Statfs_t :=
  (Statfs p).getD { Bavail := 0, Bsize := 0 }

/-- The expression `stat.Bavail*uint64(stat.Bsize)` of line 144, in 64-bit
unsigned arithmetic. -/
def freeBytes (stat : Statfs_t) : Nat := (stat.Bavail * toUint64 stat.Bsize) % 2 ^ 64

/-! ## The walk callback -/

/-- What `os.FileInfo` tells about the kind of a directory entry. -/
inductive FileKind where
  | regular
  | directory
  | other
deriving DecidableEq, Repr

/-- The part of `os.FileInfo` that the walk callback reads. -/
structure FileInfo where
  Name : String
  Size : Int
  kind : FileKind
deriving DecidableEq, Repr

/-- The method `info.IsDir()`. -/
def FileInfo.IsDir (info : FileInfo) : Bool := decide (info.kind = FileKind.directory)

/-- The method `info.Mode().IsRegular()`. -/
def FileInfo.IsRegular (info : FileInfo) : Bool := decide (info.kind = FileKind.regular)

/-- The Go call `strings.Split(s, ".")` on the characters of `s`. -/
def splitDot : List Char → List (List Char)
  | [] => [[]]
  | c :: cs =>
    if c = '.' then [] :: splitDot cs
    else
      match splitDot cs with
      | [] => [[c]]
      | h :: t => (c :: h) :: t

/-- The test of lines 126-129: `NameSplit[len(NameSplit)-1] == "plot"`. -/
def suffixTest (name : String) : Bool :=
  decide ((splitDot name.data).getLast? = some "plot".data)

/-- The state after the `case threadChan <- struct{}{}` branch (lines 153-155):
the volume `p` is marked busy, the name is put in the in-flight set, and the
goroutine `startCopy(singlePath, fullDstPath, p, name, threadChan)` is started,
where `fullDstPath` is `fmt.Sprintf("%s/%s", p, name)`. -/
def dispatch (st : State) (ch : Chan) (singlePath p name : String) : State :=
  { DstPathMap := mapSet st.DstPathMap p true
    onWorkingSrcMap := setInsert st.onWorkingSrcMap name
    threadChan := ch
    workers := { src := singlePath, dst := p ++ "/" ++ name, dstDir := p, srcName := name }
                 :: st.workers }

/-- The selection loop of lines 132-163, over the entries of the registry in the
order in which `range` yields them. No iteration that continues changes the
state, and the loop ends at the first dispatch (`found`). -/
def selectLoop (Statfs : String → Option Statfs_t) (singlePath name : String) (size : Int)
    (st : State) : List (String × Bool) → State
  | [] => st
  | (key, value) :: rest =>
    if key = "" then selectLoop Statfs singlePath name size st rest
    else if !value then
      if freeBytes (statAfter Statfs key) < toUint64 size then
        selectLoop Statfs singlePath name size st rest
      else
        match st.threadChan.trySend with
        | some ch => dispatch st ch singlePath key name
        | none => selectLoop Statfs singlePath name size st rest
    else selectLoop Statfs singlePath name size st rest

/-- The callback passed to `filepath.Walk` (lines 109-165). `info` is `none` for
a nil `PathInfo`; `order` is the order in which `range dstPathSingleton.DstPathMap`
yields the entries; the second component is the error the callback returns. -/
def walkFn (Statfs : String → Option Statfs_t) (order : List (String × Bool)) (st : State)
    (path : String) (info : Option FileInfo) (err : Option String) : State × Option String :=
  match info with
  | none => (st, none)
  | some info =>
    if info.Name ∈ st.onWorkingSrcMap then (st, none)
    else if info.IsDir || !info.IsRegular then (st, none)
    else if !suffixTest info.Name then (st, none)
    else (selectLoop Statfs path info.Name info.Size st order, err)

/-- The bookkeeping at the end of `startCopy` (lines 207-214): mark the volume
free, delete the name, and receive one token from `threadChan`. The result is
`none` when the receive cannot proceed. -/
def releaseStatus (st : State) (dstDir srcName : String) : Option State :=
  match st.threadChan.recv with
  | none => none
  | some ch =>
    some { DstPathMap := mapSet st.DstPathMap dstDir false
           onWorkingSrcMap := setDelete st.onWorkingSrcMap srcName
           threadChan := ch
           workers := st.workers }

/-- The states the program reaches from the initial one by walk-callback steps,
each with an iteration order that enumerates the registry, and by release steps
of active workers, each taken as one step that ends the worker. -/
inductive Reachable (finalDirs : List String) : State → Prop where
  | init : Reachable finalDirs (initState finalDirs)
  | callback (Statfs : String → Option Statfs_t) (order : List (String × Bool)) (st : State)
      (path : String) (info : Option FileInfo) (err : Option String) :
      Reachable finalDirs st → order.Perm st.DstPathMap →
      Reachable finalDirs (walkFn Statfs order st path info err).1
  | release (st st1 : State) (w : Worker) :
      Reachable finalDirs st → w ∈ st.workers →
      releaseStatus st w.dstDir w.srcName = some st1 →
      Reachable finalDirs { st1 with workers := st.workers.erase w }

/-! ## File system and the copy -/

/-- What a file holds: the bytes of a regular file, or a directory, of which
only emptiness matters here. -/
inductive Node where
  | file (content : List UInt8)
  | dir (isEmpty : Bool)
deriving DecidableEq, Repr

/-- The file system. A path string denotes the directory entry `canon path`, so
two strings such as `/mnt/d1/a.plot` and `/mnt/d1//a.plot` can denote one entry;
`entries` gives the file number of every entry that exists, so two entries can
be hard links of one file; `inodes` gives what each file holds. -/
structure FileSystem where
  canon : String → String
  entries : List (String × Nat)
  inodes : Nat → Node

/-- The file number stored under a directory entry, if the entry exists. -/
def lookupEntry : List (String × Nat) → String → Option Nat
  | [], _ => none
  | (k, i) :: rest, key => if k = key then some i else lookupEntry rest key

/-- The file a path leads to, if any. -/
def FileSystem.resolve (fs : FileSystem) (p : String) : Option Nat :=
  lookupEntry fs.entries (fs.canon p)

/-- What is found at a path: `none` when the path does not exist. -/
def FileSystem.nodeAt (fs : FileSystem) (p : String) : Option Node :=
  (fs.resolve p).map fs.inodes

/-- Two paths are aliases when they denote the same directory entry, or when
`src` exists and `dst` leads to the same file. -/
def aliased (fs : FileSystem) (src dst : String) : Bool :=
  decide (fs.canon src = fs.canon dst) ||
    ((fs.resolve src).isSome && decide (fs.resolve src = fs.resolve dst))

/-- A file number that no directory entry uses. -/
def freshIno (entries : List (String × Nat)) : Nat :=
  (entries.map Prod.snd).foldr max 0 + 1

/-- The file system with the content of file `i` replaced. -/
def setInode (fs : FileSystem) (i : Nat) (n : Node) : FileSystem :=
  { fs with inodes := fun j => if j = i then n else fs.inodes j }

/-- The file system without the directory entry that `p` denotes. -/
def unlink (fs : FileSystem) (p : String) : FileSystem :=
  { fs with entries := fs.entries.filter (fun e => !decide (e.1 = fs.canon p)) }

/-- The effect of `os.Remove(p)`, whose error the code discards: the entry of a
file or of an empty directory is removed; a missing path or a non-empty
directory is left as it is. Permissions are outside the model. -/
def osRemove (fs : FileSystem) (p : String) : FileSystem :=
  match fs.nodeAt p with
  | some (Node.file _) => unlink fs p
  | some (Node.dir true) => unlink fs p
  | some (Node.dir false) => fs
  | none => fs

/-- The bytes currently stored in file `i`. -/
def inodeContent (fs : FileSystem) (i : Nat) : List UInt8 :=
  match fs.inodes i with
  | Node.file c => c
  | Node.dir _ => []

/-- The errors `myCopy` can return. -/
inductive CopyError where
  | statFailed
  | notRegular
  | openFailed
  | createFailed
  | stoppedBySyscall
  | readFailed
  | writeFailed
  | closeFailed
deriving DecidableEq, Repr

/-- The results of the system calls of `myCopy` that do not follow from the file
system alone, and the value of the global `stop` each time the loop tests it.
`writeErr i = some k` is a failed write of the chunk of iteration `i` after `k`
of its bytes reached the file. `stored i b` is the byte that the destination
holds after the byte `b` was written in iteration `i`: the identity unless the
data is damaged on its way, which is what the equality check is there to find. -/
structure CopyEnv where
  statErr : Bool
  openErr : Bool
  createErr : Bool
  stopAt : Nat → Bool
  readErr : Nat → Bool
  writeErr : Nat → Option Nat
  stored : Nat → UInt8 → UInt8
  srcCloseErr : Bool
  dstCloseErr : Bool

/-- The constant `BufferSize` of `myCopy`. -/
def BufferSize : Nat := 1 * 1024 * 1024

/-- The call `os.Create(dst)`: the file number of the opened handle and the file
system left, `none` on failure. An existing regular file is truncated, whichever
path leads to it; a directory cannot be opened for writing; a missing entry is
made, with a file of its own. -/
def osCreate (env : CopyEnv) (fs : FileSystem) (dst : String) : Option (Nat × FileSystem) :=
  if env.createErr then none
  else
    match fs.resolve dst with
    | some i =>
      match fs.inodes i with
      | Node.dir _ => none
      | Node.file _ => some (i, setInode fs i (Node.file []))
    | none =>
      some (freshIno fs.entries,
        { canon := fs.canon
          entries := (fs.canon dst, freshIno fs.entries) :: fs.entries
          inodes := fun j => if j = freshIno fs.entries then Node.file [] else fs.inodes j })

/-- The effect of `destination.Write(chunk)` on the open file `di` with the file
offset at `off`. -/
def writeAt (fs : FileSystem) (di : Nat) (off : Nat) (chunk : List UInt8) : FileSystem :=
  match fs.inodes di with
  | Node.file c =>
    setInode fs di (Node.file (c.take off ++ chunk ++ c.drop (off + chunk.length)))
  | Node.dir _ => fs

/-- The loop of lines 289-311 on the open source file `si` and destination file
`di`. `i` counts the iterations and `off` is the offset of both file handles;
`fuel` bounds the number of iterations, and the result is `none` when it runs
out. A read returns the next `BufferSize` bytes of the source, fewer at the end
of the file and none with `io.EOF` after it. -/
def copyLoop (env : CopyEnv) (si di : Nat) :
    Nat → Nat → Nat → FileSystem → Option (Option CopyError × FileSystem)
  | 0, _, _, _ => none
  | fuel + 1, i, off, fs =>
    if env.stopAt i then some (some CopyError.stoppedBySyscall, fs)
    else if env.readErr i then some (some CopyError.readFailed, fs)
    else
      let chunk := ((inodeContent fs si).drop off).take BufferSize
      if chunk.length = 0 then some (none, fs)
      else
        match env.writeErr i with
        | some k =>
          some (some CopyError.writeFailed,
            writeAt fs di off ((chunk.map (env.stored i)).take k))
        | none =>
          copyLoop env si di fuel (i + 1) (off + chunk.length)
            (writeAt fs di off (chunk.map (env.stored i)))

/-- The error left in the named result `err` by the two deferred closes after
the loop returned `err`: the destination is closed first, then the source, and
a close error is kept only when `err` is still nil. -/
def closeBoth (env : CopyEnv) (err : Option CopyError) : Option CopyError :=
  let err1 := if env.dstCloseErr && err.isNone then some CopyError.closeFailed else err
  if env.srcCloseErr && err1.isNone then some CopyError.closeFailed else err1

/-- The function `myCopy(src, dst)` (lines 251-313): the error it returns, `none`
for nil, and the file system it leaves. The loop is given as many iterations as
the source has bytes, plus one. -/
def myCopy (env : CopyEnv) (fs : FileSystem) (src dst : String) :
    Option (Option CopyError × FileSystem) :=
  match fs.resolve src with
  | none => some (some CopyError.statFailed, fs)
  | some si =>
    if env.statErr then some (some CopyError.statFailed, fs)
    else
      match fs.inodes si with
      | Node.dir _ => some (some CopyError.notRegular, fs)
      | Node.file c =>
        if env.openErr then some (some CopyError.openFailed, fs)
        else
          match osCreate env fs dst with
          | none => some (some CopyError.createFailed, fs)
          | some (di, fs0) =>
            match copyLoop env si di (c.length + 1) 0 0 fs0 with
            | none => none
            | some (err, fs1) => some (closeBoth env err, fs1)

/-- Modelled from the spec: the body of `isEqualFile`, which `startCopy` calls,
is not in `src/main.go`. The spec describes it as "a full-content equality check
between source and destination": both paths hold regular files with the same
bytes. -/
def isEqualFile (fs : FileSystem) (src dst : String) : Bool :=
  match fs.nodeAt src, fs.nodeAt dst with
  | some (Node.file a), some (Node.file b) => decide (a = b)
  | _, _ => false

/-- The file-system part of `startCopy` (lines 192-205), after `myCopy` returned
`err` and left `fs1`. -/
def cleanup (fs1 : FileSystem) (err : Option CopyError) (src dst : String) : FileSystem :=
  match err with
  | some _ => osRemove fs1 dst
  | none => if isEqualFile fs1 src dst then osRemove fs1 src else osRemove fs1 dst

/-- The function `startCopy(src, dst, dstDir, srcName, threadChan)` (lines 190-216):
the file system and the bookkeeping state when it returns, `none` when it does
not return. -/
def startCopy (env : CopyEnv) (fs : FileSystem) (st : State)
    (src dst dstDir srcName : String) : Option (FileSystem × State) :=
  match myCopy env fs src dst with
  | none => none
  | some (err, fs1) =>
    match releaseStatus st dstDir srcName with
    | none => none
    | some st1 => some (cleanup fs1 err src dst, st1)

/-- The file system `fs1` differs from `fs` at most in what the file `di` holds,
and `di` holds a regular file in `fs1`. -/
def writesOnly (fs fs1 : FileSystem) (di : Nat) : Prop :=
  fs1.canon = fs.canon ∧ fs1.entries = fs.entries ∧
  (∀ j, j ≠ di → fs1.inodes j = fs.inodes j) ∧ ∃ c, fs1.inodes di = Node.file c

/-! ## The round loop of `main` -/

/-- Where the goroutine of `main` stands: before the test of `stop` at the top
of a round (line 85), inside the walks of a round (lines 104-172), before the
test of iteration `i` of the loop of `waitingForNextRound` (lines 182-187), in
the drain loop (lines 87-101), or returned. -/
inductive Pc where
  | roundTop
  | walking
  | waiting (i : Nat)
  | draining
  | exited
deriving DecidableEq, Repr

/-- The bookkeeping state together with the global `stop` and the position of
`main`. -/
structure MainState where
  st : State
  stop : Bool
  pc : Pc
deriving DecidableEq, Repr

/-- What can happen next in the process. -/
inductive Event where
  /-- The signal goroutine sets `stop = true` (line 77). -/
  | signal
  /-- The goroutine of `main` runs the test `if stop` of line 85. -/
  | testStop
  /-- The walk in progress calls the callback on one path. -/
  | visit (Statfs : String → Option Statfs_t) (order : List (String × Bool))
      (path : String) (info : Option FileInfo) (err : Option String)
  /-- The last walk of the round has returned and `waitingForNextRound` is called. -/
  | walksDone
  /-- One iteration of the loop of `waitingForNextRound`, or its end. -/
  | waitTick
  /-- One pass of the drain loop (lines 88-100). -/
  | drainPoll
  /-- A worker runs lines 207-214 and ends. -/
  | release (w : Worker)

/-- The count `workingNum` of lines 88-94. -/
def workingNum (m : List (String × Bool)) : Nat := (m.filter (fun kv => kv.2)).length

/-- One step of the process. An event that cannot happen in the current state
leaves it unchanged. -/
def mainStep (m : MainState) : Event → MainState
  | Event.signal => { m with stop := true }
  | Event.testStop =>
    if m.pc = Pc.roundTop then
      if m.stop then { m with pc := Pc.draining } else { m with pc := Pc.walking }
    else m
  | Event.visit Statfs order path info err =>
    if m.pc = Pc.walking ∧ order.isPerm m.st.DstPathMap = true then
      match walkFn Statfs order m.st path info err with
      | (st1, none) => { m with st := st1 }
      | (st1, some _) => { m with st := st1, pc := Pc.exited }
    else m
  | Event.walksDone => if m.pc = Pc.walking then { m with pc := Pc.waiting 0 } else m
  | Event.waitTick =>
    match m.pc with
    | Pc.waiting i =>
      if i < 150 ∧ m.stop = false then { m with pc := Pc.waiting (i + 1) }
      else { m with pc := Pc.roundTop }
    | _ => m
  | Event.drainPoll =>
    if m.pc = Pc.draining ∧ workingNum m.st.DstPathMap = 0 then { m with pc := Pc.exited } else m
  | Event.release w =>
    if w ∈ m.st.workers then
      match releaseStatus m.st w.dstDir w.srcName with
      | some st1 => { m with st := { st1 with workers := m.st.workers.erase w } }
      | none => m
    else m

/-- The state after a sequence of events. -/
def run (m : MainState) (evs : List Event) : MainState := evs.foldl mainStep m

/-- The state in which `main` reaches its round loop for the first time. -/
def mainInit (finalDirs : List String) : MainState :=
  { st := initState finalDirs, stop := false, pc := Pc.roundTop }

/-! ## The bookkeeping invariant -/

/-- The invariant of the bookkeeping state: the registry has one entry per key,
the busy volumes are the targets of the workers, the in-flight names are the
names the workers hold, no two workers share a target or a name, and the tokens
in the channel count the workers. -/
structure Inv (s : State) : Prop where
  keysNodup : (mapKeys s.DstPathMap).Nodup
  dstNodup : (s.workers.map Worker.dstDir).Nodup
  busyIff : ∀ p, mapGet s.DstPathMap p = some true ↔ p ∈ s.workers.map Worker.dstDir
  srcNodup : (s.workers.map Worker.srcName).Nodup
  srcIff : ∀ n, n ∈ s.onWorkingSrcMap ↔ n ∈ s.workers.map Worker.srcName
  slots : s.threadChan.len = s.workers.length
  capEq : s.threadChan.cap = s.DstPathMap.length

/-- The condition of the selection on one entry of the registry: a non-empty
path, not busy, and computed free bytes at least the size of the file. -/
def qualifies (Statfs : String → Option Statfs_t) (size : Int) (kv : String × Bool) : Bool :=
  decide (kv.1 ≠ "") && !kv.2 && decide (toUint64 size ≤ freeBytes (statAfter Statfs kv.1))

/-- The part of a name after its last dot, the whole name when it has no dot. -/
def lastComponent : List Char → List Char
  | [] => []
  | c :: cs => if '.' ∈ cs then lastComponent cs else if c = '.' then cs else c :: cs

/-! ## A small configuration used in the examples -/

/-- Two destination volumes. -/
def exDirs : List String := ["/mnt/d1", "/mnt/d2"]

/-- Every volume reports 100 free blocks of 4096 bytes. -/
def exStatfs : String → Option Statfs_t := fun _ => some { Bavail := 100, Bsize := 4096 }

/-- A regular file `a.plot` of 1000 bytes. -/
def exInfo : FileInfo := { Name := "a.plot", Size := 1000, kind := FileKind.regular }

/-- The state after the callback has visited `/tmp/a.plot` in the initial state. -/
def exState1 : State :=
  (walkFn exStatfs (initState exDirs).DstPathMap (initState exDirs) "/tmp/a.plot"
    (some exInfo) none).1

/-- The worker started for `/tmp/a.plot`. -/
def exWorker : Worker :=
  { src := "/tmp/a.plot", dst := "/mnt/d1/a.plot", dstDir := "/mnt/d1", srcName := "a.plot" }

/-- An environment in which no system call fails, the data arrives as written
and `stop` stays false. -/
def exEnv : CopyEnv :=
  { statErr := false, openErr := false, createErr := false, stopAt := fun _ => false,
    readErr := fun _ => false, writeErr := fun _ => none, stored := fun _ b => b,
    srcCloseErr := false, dstCloseErr := false }

/-- The same environment with `stop` already true. -/
def exEnvStopped : CopyEnv := { exEnv with stopAt := fun _ => true }

/-- The same environment with every byte damaged on its way to the destination. -/
def exEnvDamaged : CopyEnv := { exEnv with stored := fun _ b => b + 1 }

/-- Path resolution in the examples: a doubled slash counts as one. -/
def exCanon : String → String := fun p =>
  if p = "/mnt/d1//a.plot" then "/mnt/d1/a.plot" else p

/-- A file system with the three-byte file `/tmp/a.plot` and a non-empty
directory at `/mnt/d2/a.plot`. -/
def exFs : FileSystem :=
  { canon := exCanon
    entries := [("/tmp/a.plot", 0), ("/mnt/d2/a.plot", 1)]
    inodes := fun i => if i = 0 then Node.file [1, 2, 3] else Node.dir false }

/-- The file system that `myCopy` leaves after copying `/tmp/a.plot` to
`/mnt/d1/a.plot`. -/
def exFsCopied : FileSystem :=
  match myCopy exEnv exFs "/tmp/a.plot" "/mnt/d1/a.plot" with
  | some r => r.2
  | none => exFs

/-- The file system that `myCopy` leaves after the same copy with damaged data. -/
def exFsDamaged : FileSystem :=
  match myCopy exEnvDamaged exFs "/tmp/a.plot" "/mnt/d1/a.plot" with
  | some r => r.2
  | none => exFs

/-- The file system that `myCopy` leaves when it is stopped at its first test of
`stop`, after it has created `/mnt/d1/a.plot`. -/
def exFsStopped : FileSystem :=
  match myCopy exEnvStopped exFs "/tmp/a.plot" "/mnt/d1/a.plot" with
  | some r => r.2
  | none => exFs

/-- The bookkeeping state after the worker of `exState1` has run lines 207-214. -/
def exState2 : State :=
  { DstPathMap := [("/mnt/d1", false), ("/mnt/d2", false)]
    onWorkingSrcMap := []
    threadChan := { cap := 2, len := 0 }
    workers := [exWorker] }

/-- One destination volume, configured with a trailing slash. -/
def exDirsSlash : List String := ["/mnt/d1/"]

/-- A file system in which the plot file lies in the destination volume, as it
does when that volume is inside a staging location. -/
def exFsNested : FileSystem :=
  { canon := exCanon
    entries := [("/mnt/d1/a.plot", 0)]
    inodes := fun _ => Node.file [1, 2, 3] }

/-- The state after the callback has visited `/mnt/d1/a.plot` in the initial
state of the configuration `exDirsSlash`. -/
def exStateNested : State :=
  (walkFn exStatfs (initState exDirsSlash).DstPathMap (initState exDirsSlash) "/mnt/d1/a.plot"
    (some exInfo) none).1

/-- A file system in which `/mnt/d1/a.plot` is a hard link of `/tmp/a.plot`. -/
def exFsLinked : FileSystem :=
  { canon := exCanon
    entries := [("/tmp/a.plot", 0), ("/mnt/d1/a.plot", 0)]
    inodes := fun _ => Node.file [1, 2, 3] }

/-! ## Lemmas on maps and sets -/

theorem mapGet_mapSet (m : List (String × Bool)) (k : String) (v : Bool) (q : String) :
    mapGet (mapSet m k v) q = if q = k then some v else mapGet m q := by
  induction m with
  | nil =>
    by_cases h : q = k
    · simp [mapSet, mapGet, h]
    · have h2 : ¬ k = q := fun e => h e.symm
      simp [mapSet, mapGet, h, h2]
  | cons kv rest ih =>
    obtain ⟨k0, v0⟩ := kv
    by_cases h0 : k0 = k
    · subst h0
      by_cases h : q = k0
      · simp [mapSet, mapGet, h]
      · have h2 : ¬ k0 = q := fun e => h e.symm
        simp [mapSet, mapGet, h, h2]
    · by_cases h : k0 = q
      · have h3 : ¬ q = k := fun e => h0 (h.trans e)
        simp [mapSet, mapGet, h0, h, h3]
      · simp [mapSet, mapGet, h0, h, ih]

theorem mapGet_isSome_iff (m : List (String × Bool)) (k : String) :
    (mapGet m k).isSome = true ↔ k ∈ mapKeys m := by
  induction m with
  | nil => simp [mapGet, mapKeys]
  | cons kv rest ih =>
    obtain ⟨k0, v0⟩ := kv
    by_cases h : k0 = k
    · simp [mapGet, mapKeys, h]
    · have h2 : ¬ k = k0 := fun e => h e.symm
      simp only [mapGet, h, if_false, mapKeys, List.map_cons, List.mem_cons, h2, false_or]
      exact ih

theorem mapKeys_mapSet_of_mem (m : List (String × Bool)) (k : String) (v : Bool)
    (h : k ∈ mapKeys m) : mapKeys (mapSet m k v) = mapKeys m := by
  induction m with
  | nil => simp [mapKeys] at h
  | cons kv rest ih =>
    obtain ⟨k0, v0⟩ := kv
    by_cases h0 : k0 = k
    · simp [mapSet, mapKeys, h0]
    · have h2 : ¬ k = k0 := fun e => h0 e.symm
      have hr : k ∈ mapKeys rest := by
        simpa [mapKeys, h2] using h
      have := ih hr
      simp only [mapKeys] at this
      simp [mapSet, mapKeys, h0, this]

theorem mapKeys_mapSet_of_not_mem (m : List (String × Bool)) (k : String) (v : Bool)
    (h : k ∉ mapKeys m) : mapKeys (mapSet m k v) = mapKeys m ++ [k] := by
  induction m with
  | nil => simp [mapKeys, mapSet]
  | cons kv rest ih =>
    obtain ⟨k0, v0⟩ := kv
    have h0 : ¬ k0 = k := by
      intro e
      apply h
      simp [mapKeys, e]
    have hr : k ∉ mapKeys rest := by
      intro e
      apply h
      simp only [mapKeys, List.map_cons, List.mem_cons]
      exact Or.inr e
    have := ih hr
    simp only [mapKeys] at this
    simp [mapSet, mapKeys, h0, this]

theorem mapKeys_nodup_mapSet (m : List (String × Bool)) (k : String) (v : Bool)
    (h : (mapKeys m).Nodup) : (mapKeys (mapSet m k v)).Nodup := by
  by_cases hk : k ∈ mapKeys m
  · rw [mapKeys_mapSet_of_mem m k v hk]
    exact h
  · rw [mapKeys_mapSet_of_not_mem m k v hk]
    rw [List.nodup_append]
    refine ⟨h, List.nodup_singleton k, ?_⟩
    intro a ha hb
    simp only [List.mem_singleton] at hb
    subst hb
    exact hk ha

theorem length_mapSet_of_mem (m : List (String × Bool)) (k : String) (v : Bool)
    (h : k ∈ mapKeys m) : (mapSet m k v).length = m.length := by
  have := congrArg List.length (mapKeys_mapSet_of_mem m k v h)
  simpa [mapKeys] using this

theorem mapGet_of_mem (m : List (String × Bool)) (k : String) (v : Bool)
    (hn : (mapKeys m).Nodup) (h : (k, v) ∈ m) : mapGet m k = some v := by
  induction m with
  | nil => simp at h
  | cons kv rest ih =>
    obtain ⟨k0, v0⟩ := kv
    simp only [mapKeys, List.map_cons, List.nodup_cons] at hn
    rcases List.mem_cons.mp h with h1 | h1
    · injection h1 with e1 e2
      subst e1
      subst e2
      simp [mapGet]
    · have hk : k ∈ List.map Prod.fst rest := List.mem_map.mpr ⟨(k, v), h1, rfl⟩
      have h0 : ¬ k0 = k := by
        intro e
        subst e
        exact hn.1 hk
      simp only [mapGet, h0, if_false]
      exact ih hn.2 h1

theorem mem_of_mapGet (m : List (String × Bool)) (k : String) (v : Bool)
    (h : mapGet m k = some v) : (k, v) ∈ m := by
  induction m with
  | nil => simp [mapGet] at h
  | cons kv rest ih =>
    obtain ⟨k0, v0⟩ := kv
    by_cases h0 : k0 = k
    · simp only [mapGet, h0, if_true, Option.some.injEq] at h
      subst h0
      subst h
      exact List.mem_cons_self _ _
    · simp only [mapGet, h0, if_false] at h
      exact List.mem_cons_of_mem _ (ih h)

theorem mem_setInsert (s : List String) (name n : String) :
    n ∈ setInsert s name ↔ n = name ∨ n ∈ s := by
  unfold setInsert
  by_cases h : name ∈ s
  · simp only [h, if_true]
    constructor
    · intro hn
      exact Or.inr hn
    · rintro (e | hn)
      · subst e
        exact h
      · exact hn
  · simp [h]

theorem mem_setDelete (s : List String) (name n : String) :
    n ∈ setDelete s name ↔ n ∈ s ∧ n ≠ name := by
  simp [setDelete]

/-! ## Lemmas on worker lists -/

theorem filter_length_le_one {α : Type} (f : α → String) (l : List α) (p : String)
    (h : (l.map f).Nodup) : (l.filter (fun w => decide (f w = p))).length ≤ 1 := by
  induction l with
  | nil => simp
  | cons a rest ih =>
    simp only [List.map_cons, List.nodup_cons] at h
    by_cases ha : f a = p
    · have hnone : rest.filter (fun w => decide (f w = p)) = [] := by
        rw [List.filter_eq_nil_iff]
        intro x hx
        simp only [decide_eq_true_eq]
        intro e
        apply h.1
        rw [ha, ← e]
        exact List.mem_map.mpr ⟨x, hx, rfl⟩
      simp [List.filter_cons, ha, hnone]
    · simp only [List.filter_cons, ha, decide_False]
      exact ih h.2

theorem mem_erase_iff_of_nodup_map (f : Worker → String) (l : List Worker) (w x : Worker)
    (h : (l.map f).Nodup) (hw : w ∈ l) : x ∈ l.erase w ↔ x ∈ l ∧ f x ≠ f w := by
  have hl : l.Nodup := List.Nodup.of_map f h
  rw [hl.mem_erase_iff]
  constructor
  · rintro ⟨hne, hx⟩
    refine ⟨hx, ?_⟩
    intro e
    exact hne (List.inj_on_of_nodup_map h hx hw e)
  · rintro ⟨hx, hne⟩
    refine ⟨?_, hx⟩
    intro e
    apply hne
    rw [e]

theorem nodup_map_erase (f : Worker → String) (l : List Worker) (w : Worker)
    (h : (l.map f).Nodup) : ((l.erase w).map f).Nodup :=
  List.Nodup.sublist (List.Sublist.map f (List.erase_sublist w l)) h

/-! ## The steps keep the invariant -/

theorem selectLoop_cases (Statfs : String → Option Statfs_t) (singlePath name : String)
    (size : Int) (st : State) (order : List (String × Bool)) :
    selectLoop Statfs singlePath name size st order = st ∨
    ∃ key ch, (key, false) ∈ order ∧ key ≠ "" ∧
      toUint64 size ≤ freeBytes (statAfter Statfs key) ∧
      st.threadChan.trySend = some ch ∧
      selectLoop Statfs singlePath name size st order = dispatch st ch singlePath key name := by
  induction order with
  | nil => exact Or.inl rfl
  | cons kv rest ih =>
    obtain ⟨key, value⟩ := kv
    have lift : (selectLoop Statfs singlePath name size st rest = st ∨
        ∃ key ch, (key, false) ∈ rest ∧ key ≠ "" ∧
          toUint64 size ≤ freeBytes (statAfter Statfs key) ∧
          st.threadChan.trySend = some ch ∧
          selectLoop Statfs singlePath name size st rest = dispatch st ch singlePath key name) →
        (selectLoop Statfs singlePath name size st rest = st ∨
        ∃ key1 ch, (key1, false) ∈ (key, value) :: rest ∧ key1 ≠ "" ∧
          toUint64 size ≤ freeBytes (statAfter Statfs key1) ∧
          st.threadChan.trySend = some ch ∧
          selectLoop Statfs singlePath name size st rest
            = dispatch st ch singlePath key1 name) := by
      rintro (h | ⟨k1, ch, h1, h2, h3, h4, h5⟩)
      · exact Or.inl h
      · exact Or.inr ⟨k1, ch, List.mem_cons_of_mem _ h1, h2, h3, h4, h5⟩
    by_cases hk : key = ""
    · have heq : selectLoop Statfs singlePath name size st ((key, value) :: rest)
          = selectLoop Statfs singlePath name size st rest := by
        simp only [selectLoop, hk, if_true]
      rw [heq]
      exact lift ih
    · cases value with
      | true =>
        have heq : selectLoop Statfs singlePath name size st ((key, true) :: rest)
            = selectLoop Statfs singlePath name size st rest := by
          simp only [selectLoop, hk, if_false, Bool.not_true, Bool.false_eq_true]
        rw [heq]
        exact lift ih
      | false =>
        by_cases hf : freeBytes (statAfter Statfs key) < toUint64 size
        · have heq : selectLoop Statfs singlePath name size st ((key, false) :: rest)
              = selectLoop Statfs singlePath name size st rest := by
            simp only [selectLoop, hk, if_false, Bool.not_false, if_true, hf]
          rw [heq]
          exact lift ih
        · rcases Option.eq_none_or_eq_some st.threadChan.trySend with hs | ⟨ch, hs⟩
          · have heq : selectLoop Statfs singlePath name size st ((key, false) :: rest)
                = selectLoop Statfs singlePath name size st rest := by
              simp only [selectLoop, hk, if_false, Bool.not_false, if_true, hf, hs]
            rw [heq]
            exact lift ih
          · have heq : selectLoop Statfs singlePath name size st ((key, false) :: rest)
                = dispatch st ch singlePath key name := by
              simp only [selectLoop, hk, if_false, Bool.not_false, if_true, hf, hs]
            exact Or.inr ⟨key, ch, List.mem_cons_self _ _, hk, Nat.le_of_not_lt hf, hs, heq⟩

theorem trySend_eq_some (ch ch1 : Chan) (h : ch.trySend = some ch1) :
    ch.len < ch.cap ∧ ch1 = { cap := ch.cap, len := ch.len + 1 } := by
  unfold Chan.trySend at h
  by_cases hl : ch.len < ch.cap
  · simp only [hl, if_true, Option.some.injEq] at h
    exact ⟨hl, h.symm⟩
  · simp [hl] at h

theorem dispatch_inv (st : State) (ch : Chan) (singlePath key name : String)
    (hinv : Inv st) (hfree : mapGet st.DstPathMap key = some false)
    (hname : name ∉ st.onWorkingSrcMap) (hs : st.threadChan.trySend = some ch) :
    Inv (dispatch st ch singlePath key name) := by
  obtain ⟨_, hch⟩ := trySend_eq_some _ _ hs
  have hkey : key ∈ mapKeys st.DstPathMap := by
    rw [← mapGet_isSome_iff, hfree]
    rfl
  have hnot : key ∉ st.workers.map Worker.dstDir := by
    intro hmem
    have := (hinv.busyIff key).mpr hmem
    rw [hfree] at this
    simp at this
  constructor
  · simp only [dispatch]
    exact mapKeys_nodup_mapSet _ _ _ hinv.keysNodup
  · simp only [dispatch, List.map_cons, List.nodup_cons]
    exact ⟨hnot, hinv.dstNodup⟩
  · intro p
    simp only [dispatch, List.map_cons, List.mem_cons, mapGet_mapSet]
    by_cases hp : p = key
    · simp [hp]
    · simp only [hp, if_false, false_or]
      exact hinv.busyIff p
  · simp only [dispatch, List.map_cons, List.nodup_cons]
    refine ⟨?_, hinv.srcNodup⟩
    intro hmem
    exact hname ((hinv.srcIff name).mpr hmem)
  · intro n
    simp only [dispatch, List.map_cons, List.mem_cons, mem_setInsert]
    rw [hinv.srcIff n]
  · simp only [dispatch, hch, List.length_cons]
    rw [hinv.slots]
  · simp only [dispatch, hch]
    rw [hinv.capEq, length_mapSet_of_mem _ _ _ hkey]

theorem selectLoop_inv (Statfs : String → Option Statfs_t) (singlePath name : String)
    (size : Int) (st : State) (order : List (String × Bool))
    (hinv : Inv st) (hperm : order.Perm st.DstPathMap) (hname : name ∉ st.onWorkingSrcMap) :
    Inv (selectLoop Statfs singlePath name size st order) := by
  rcases selectLoop_cases Statfs singlePath name size st order with
    h | ⟨key, ch, hmem, _, _, hs, heq⟩
  · rw [h]
    exact hinv
  · rw [heq]
    have hfree : mapGet st.DstPathMap key = some false :=
      mapGet_of_mem _ _ _ hinv.keysNodup (hperm.mem_iff.mp hmem)
    exact dispatch_inv st ch singlePath key name hinv hfree hname hs

theorem walkFn_inv (Statfs : String → Option Statfs_t) (order : List (String × Bool))
    (st : State) (path : String) (info : Option FileInfo) (err : Option String)
    (hinv : Inv st) (hperm : order.Perm st.DstPathMap) :
    Inv (walkFn Statfs order st path info err).1 := by
  cases info with
  | none => exact hinv
  | some info =>
    simp only [walkFn]
    by_cases h1 : info.Name ∈ st.onWorkingSrcMap
    · simp only [h1, if_true]
      exact hinv
    · simp only [h1, if_false]
      split
      · exact hinv
      · split
        · exact hinv
        · exact selectLoop_inv Statfs path info.Name info.Size st order hinv hperm h1

theorem releaseStatus_eq_some (st st1 : State) (dstDir srcName : String)
    (h : releaseStatus st dstDir srcName = some st1) :
    0 < st.threadChan.len ∧
    st1 = { DstPathMap := mapSet st.DstPathMap dstDir false
            onWorkingSrcMap := setDelete st.onWorkingSrcMap srcName
            threadChan := { cap := st.threadChan.cap, len := st.threadChan.len - 1 }
            workers := st.workers } := by
  unfold releaseStatus Chan.recv at h
  by_cases hl : 0 < st.threadChan.len
  · simp only [hl, if_true, Option.some.injEq] at h
    exact ⟨hl, h.symm⟩
  · simp [hl] at h

theorem release_inv (st st1 : State) (w : Worker) (hinv : Inv st) (hw : w ∈ st.workers)
    (h : releaseStatus st w.dstDir w.srcName = some st1) :
    Inv { st1 with workers := st.workers.erase w } := by
  obtain ⟨hpos, heq⟩ := releaseStatus_eq_some _ _ _ _ h
  subst heq
  have hbusy : mapGet st.DstPathMap w.dstDir = some true :=
    (hinv.busyIff w.dstDir).mpr (List.mem_map.mpr ⟨w, hw, rfl⟩)
  have hkey : w.dstDir ∈ mapKeys st.DstPathMap := by
    rw [← mapGet_isSome_iff, hbusy]
    rfl
  constructor
  · exact mapKeys_nodup_mapSet _ _ _ hinv.keysNodup
  · exact nodup_map_erase _ _ _ hinv.dstNodup
  · intro p
    simp only [mapGet_mapSet, List.mem_map]
    by_cases hp : p = w.dstDir
    · simp only [hp, if_true]
      constructor
      · intro hc
        simp at hc
      · rintro ⟨x, hx, hxp⟩
        exact absurd hxp
          ((mem_erase_iff_of_nodup_map Worker.dstDir _ w x hinv.dstNodup hw).mp hx).2
    · simp only [hp, if_false]
      rw [hinv.busyIff p, List.mem_map]
      constructor
      · rintro ⟨x, hx, hxp⟩
        refine ⟨x, ?_, hxp⟩
        rw [mem_erase_iff_of_nodup_map Worker.dstDir _ w x hinv.dstNodup hw]
        refine ⟨hx, ?_⟩
        rw [hxp]
        exact hp
      · rintro ⟨x, hx, hxp⟩
        exact ⟨x, List.mem_of_mem_erase hx, hxp⟩
  · exact nodup_map_erase _ _ _ hinv.srcNodup
  · intro n
    simp only [mem_setDelete, List.mem_map]
    rw [hinv.srcIff n, List.mem_map]
    constructor
    · rintro ⟨⟨x, hx, hxn⟩, hne⟩
      refine ⟨x, ?_, hxn⟩
      rw [mem_erase_iff_of_nodup_map Worker.srcName _ w x hinv.srcNodup hw]
      refine ⟨hx, ?_⟩
      rw [hxn]
      exact hne
    · rintro ⟨x, hx, hxn⟩
      refine ⟨⟨x, List.mem_of_mem_erase hx, hxn⟩, ?_⟩
      rw [← hxn]
      exact ((mem_erase_iff_of_nodup_map Worker.srcName _ w x hinv.srcNodup hw).mp hx).2
  · simp only [List.length_erase_of_mem hw]
    rw [hinv.slots]
  · simp only
    rw [hinv.capEq, length_mapSet_of_mem _ _ _ hkey]

theorem initDstPathSingleton_aux (finalDirs : List String) (m : List (String × Bool))
    (hn : (mapKeys m).Nodup) (hf : ∀ p, mapGet m p ≠ some true) :
    (mapKeys (finalDirs.foldl (fun m v => mapSet m v false) m)).Nodup ∧
    ∀ p, mapGet (finalDirs.foldl (fun m v => mapSet m v false) m) p ≠ some true := by
  induction finalDirs generalizing m with
  | nil => exact ⟨hn, hf⟩
  | cons v rest ih =>
    simp only [List.foldl_cons]
    apply ih
    · exact mapKeys_nodup_mapSet _ _ _ hn
    · intro p
      rw [mapGet_mapSet]
      by_cases hp : p = v
      · simp [hp]
      · simp only [hp, if_false]
        exact hf p

theorem init_inv (finalDirs : List String) : Inv (initState finalDirs) := by
  have h := initDstPathSingleton_aux finalDirs [] (by simp [mapKeys]) (by simp [mapGet])
  constructor
  · exact h.1
  · simp [initState]
  · intro p
    simp only [initState, List.map_nil, List.not_mem_nil, iff_false]
    exact h.2 p
  · simp [initState]
  · intro n
    simp [initState]
  · simp [initState]
  · simp [initState]

theorem reachable_inv (finalDirs : List String) (s : State) (h : Reachable finalDirs s) :
    Inv s := by
  induction h with
  | init => exact init_inv finalDirs
  | callback Statfs order st path info err _ hperm ih =>
    exact walkFn_inv Statfs order st path info err ih hperm
  | release st st1 w _ hw hrel ih => exact release_inv st st1 w ih hw hrel

/-! ## Facts on the example configuration -/

theorem exState1_eq : exState1 =
    { DstPathMap := [("/mnt/d1", true), ("/mnt/d2", false)]
      onWorkingSrcMap := ["a.plot"]
      threadChan := { cap := 2, len := 1 }
      workers := [exWorker] } := by
  decide

theorem exState1_reachable : Reachable exDirs exState1 :=
  Reachable.callback exStatfs (initState exDirs).DstPathMap (initState exDirs) "/tmp/a.plot"
    (some exInfo) none Reachable.init (List.Perm.refl _)

/-! ## Registry, in-flight set and slots in reachable states -/

/-- C1: in every reachable state and for every destination volume `p`, at most
one active worker targets `p`, and the busy flag of `p` is true if and only if
some active worker targets `p`. -/
theorem volume_mutual_exclusion (finalDirs : List String) (s : State)
    (h : Reachable finalDirs s) (p : String) :
    (s.workers.filter (fun w => decide (w.dstDir = p))).length ≤ 1 ∧
    (mapGet s.DstPathMap p = some true ↔ ∃ w, w ∈ s.workers ∧ w.dstDir = p) := by
  have hinv := reachable_inv finalDirs s h
  refine ⟨filter_length_le_one Worker.dstDir s.workers p hinv.dstNodup, ?_⟩
  rw [hinv.busyIff p, List.mem_map]

theorem volume_mutual_exclusion_witness :
    Reachable exDirs exState1 ∧
    (exState1.workers.filter (fun w => decide (w.dstDir = "/mnt/d1"))).length ≤ 1 ∧
    (mapGet exState1.DstPathMap "/mnt/d1" = some true ↔
      ∃ w, w ∈ exState1.workers ∧ w.dstDir = "/mnt/d1") :=
  ⟨exState1_reachable, volume_mutual_exclusion exDirs exState1 exState1_reachable "/mnt/d1"⟩

/-- C3: in every reachable state and for every source file name `n`, at most one
active worker holds `n`, and `n` is in the in-flight set if and only if some
active worker holds it; the walk callback leaves the state as it is on any path
and any file information whose name is in the set. -/
theorem source_single_ownership (finalDirs : List String) (s : State)
    (h : Reachable finalDirs s) (n : String) :
    (s.workers.filter (fun w => decide (w.srcName = n))).length ≤ 1 ∧
    (n ∈ s.onWorkingSrcMap ↔ ∃ w, w ∈ s.workers ∧ w.srcName = n) ∧
    (n ∈ s.onWorkingSrcMap →
      ∀ (Statfs : String → Option Statfs_t) (order : List (String × Bool)) (path : String)
        (size : Int) (kind : FileKind) (err : Option String),
        walkFn Statfs order s path (some { Name := n, Size := size, kind := kind }) err
          = (s, none)) := by
  have hinv := reachable_inv finalDirs s h
  refine ⟨filter_length_le_one Worker.srcName s.workers n hinv.srcNodup, ?_, ?_⟩
  · rw [hinv.srcIff n, List.mem_map]
  · intro hn Statfs order path size kind err
    simp [walkFn, hn]

theorem source_single_ownership_witness :
    Reachable exDirs exState1 ∧
    (exState1.workers.filter (fun w => decide (w.srcName = "a.plot"))).length ≤ 1 ∧
    ("a.plot" ∈ exState1.onWorkingSrcMap ↔
      ∃ w, w ∈ exState1.workers ∧ w.srcName = "a.plot") ∧
    walkFn exStatfs exState1.DstPathMap exState1 "/tmp2/a.plot"
      (some { Name := "a.plot", Size := 1000, kind := FileKind.regular }) none
      = (exState1, none) :=
  ⟨exState1_reachable,
   (source_single_ownership exDirs exState1 exState1_reachable "a.plot").1,
   (source_single_ownership exDirs exState1 exState1_reachable "a.plot").2.1,
   (source_single_ownership exDirs exState1 exState1_reachable "a.plot").2.2 (by decide)
     exStatfs exState1.DstPathMap "/tmp2/a.plot" 1000 FileKind.regular none⟩

theorem walkFn_cap (Statfs : String → Option Statfs_t) (order : List (String × Bool))
    (st : State) (path : String) (info : Option FileInfo) (err : Option String) :
    (walkFn Statfs order st path info err).1.threadChan.cap = st.threadChan.cap := by
  cases info with
  | none => rfl
  | some info =>
    simp only [walkFn]
    split
    · rfl
    · split
      · rfl
      · split
        · rfl
        · rcases selectLoop_cases Statfs path info.Name info.Size st order with
            h | ⟨key, ch, _, _, _, hs, heq⟩
          · rw [h]
          · rw [heq]
            obtain ⟨_, hch⟩ := trySend_eq_some _ _ hs
            simp [dispatch, hch]

theorem reachable_cap (finalDirs : List String) (s : State) (h : Reachable finalDirs s) :
    s.threadChan.cap = (initDstPathSingleton finalDirs).length := by
  induction h with
  | init => rfl
  | callback Statfs order st path info err _ _ ih =>
    rw [walkFn_cap Statfs order st path info err, ih]
  | release st st1 w _ _ hrel ih =>
    obtain ⟨_, heq⟩ := releaseStatus_eq_some _ _ _ _ hrel
    subst heq
    exact ih

theorem workers_targets_subset (s : State) (hinv : Inv s) :
    s.workers.map Worker.dstDir ⊆ mapKeys s.DstPathMap := by
  intro p hp
  have := (hinv.busyIff p).mpr hp
  rw [← mapGet_isSome_iff, this]
  rfl

/-- C4: in every reachable state the number of active workers is at most the
number of destination volumes in the registry, the capacity of `threadChan` is
the number of registry keys (the number it was made with), and the number of
tokens in `threadChan` is the number of active workers. -/
theorem workers_bounded_by_volumes (finalDirs : List String) (s : State)
    (h : Reachable finalDirs s) :
    s.workers.length ≤ (mapKeys s.DstPathMap).length ∧
    s.threadChan.cap = (mapKeys s.DstPathMap).length ∧
    s.threadChan.cap = (mapKeys (initDstPathSingleton finalDirs)).length ∧
    s.threadChan.len = s.workers.length := by
  have hinv := reachable_inv finalDirs s h
  refine ⟨?_, ?_, ?_, hinv.slots⟩
  · have hsub := List.subperm_of_subset hinv.dstNodup (workers_targets_subset s hinv)
    have := hsub.length_le
    simpa using this
  · rw [hinv.capEq]
    simp [mapKeys]
  · rw [reachable_cap finalDirs s h]
    simp [mapKeys]

theorem workers_bounded_by_volumes_witness :
    Reachable exDirs exState1 ∧
    exState1.workers.length ≤ (mapKeys exState1.DstPathMap).length ∧
    exState1.threadChan.cap = (mapKeys exState1.DstPathMap).length ∧
    exState1.threadChan.cap = (mapKeys (initDstPathSingleton exDirs)).length ∧
    exState1.threadChan.len = exState1.workers.length :=
  ⟨exState1_reachable, workers_bounded_by_volumes exDirs exState1 exState1_reachable⟩

/-! ## The selection loop -/

theorem toUint64_of_nonneg (x : Int) (h0 : 0 ≤ x) (h1 : x < 2 ^ 63) : (toUint64 x : Int) = x := by
  unfold toUint64
  have h2 : (2 : Int) ^ 63 = 9223372036854775808 := by norm_num
  have h3 : (2 : Int) ^ 64 = 18446744073709551616 := by norm_num
  rw [h2] at h1
  rw [h3]
  omega

theorem toUint64_le (x : Int) (h0 : 0 ≤ x) : (toUint64 x : Int) ≤ x := by
  unfold toUint64
  have h3 : (2 : Int) ^ 64 = 18446744073709551616 := by norm_num
  rw [h3]
  omega

theorem freeBytes_le (stat : Statfs_t) (h : 0 ≤ stat.Bsize) :
    (freeBytes stat : Int) ≤ (stat.Bavail : Int) * stat.Bsize := by
  unfold freeBytes
  have h1 : (stat.Bavail * toUint64 stat.Bsize) % 2 ^ 64 ≤ stat.Bavail * toUint64 stat.Bsize :=
    Nat.mod_le _ _
  have h2 : (((stat.Bavail * toUint64 stat.Bsize) % 2 ^ 64 : Nat) : Int)
      ≤ ((stat.Bavail * toUint64 stat.Bsize : Nat) : Int) := Int.ofNat_le.mpr h1
  have h3 : ((stat.Bavail * toUint64 stat.Bsize : Nat) : Int)
      = (stat.Bavail : Int) * (toUint64 stat.Bsize : Int) := by push_cast; rfl
  have h4 : (stat.Bavail : Int) * (toUint64 stat.Bsize : Int) ≤ (stat.Bavail : Int) * stat.Bsize :=
    Int.mul_le_mul_of_nonneg_left (toUint64_le _ h) (Int.ofNat_nonneg _)
  calc (((stat.Bavail * toUint64 stat.Bsize) % 2 ^ 64 : Nat) : Int)
      ≤ ((stat.Bavail * toUint64 stat.Bsize : Nat) : Int) := h2
    _ = (stat.Bavail : Int) * (toUint64 stat.Bsize : Int) := h3
    _ ≤ (stat.Bavail : Int) * stat.Bsize := h4

/-- C2: for every registry, every file size `0 ≤ size` (a signed 64-bit value)
and every result of the free-space query with `0 ≤ Bsize`, if the selection loop
launches a worker `w`, then the volume `w.dstDir` was not busy before the
selection and its free space `Bavail * Bsize`, as exact integers, is at least
`size`, although the loop compares the product modulo `2 ^ 64`. -/
theorem selected_volume_has_space (Statfs : String → Option Statfs_t)
    (singlePath name : String) (size : Int) (st : State) (order : List (String × Bool))
    (w : Worker)
    (hkeys : (mapKeys st.DstPathMap).Nodup) (hperm : order.Perm st.DstPathMap)
    (hsize0 : 0 ≤ size) (hsize : size < 2 ^ 63)
    (hbsize : 0 ≤ (statAfter Statfs w.dstDir).Bsize)
    (hlaunch : (selectLoop Statfs singlePath name size st order).workers = w :: st.workers) :
    mapGet st.DstPathMap w.dstDir = some false ∧
    size ≤ ((statAfter Statfs w.dstDir).Bavail : Int) * (statAfter Statfs w.dstDir).Bsize := by
  rcases selectLoop_cases Statfs singlePath name size st order with
    h | ⟨key, ch, hmem, _, hfree, _, heq⟩
  · rw [h] at hlaunch
    have := congrArg List.length hlaunch
    simp at this
  · rw [heq] at hlaunch
    simp only [dispatch, List.cons.injEq, and_true] at hlaunch
    have hkey : w.dstDir = key := by rw [← hlaunch]
    rw [hkey] at hbsize ⊢
    refine ⟨mapGet_of_mem _ _ _ hkeys (hperm.mem_iff.mp hmem), ?_⟩
    have h1 : ((toUint64 size : Nat) : Int) ≤ (freeBytes (statAfter Statfs key) : Int) :=
      Int.ofNat_le.mpr hfree
    rw [toUint64_of_nonneg size hsize0 hsize] at h1
    exact le_trans h1 (freeBytes_le _ hbsize)

theorem selected_volume_has_space_witness :
    mapGet (initState exDirs).DstPathMap exWorker.dstDir = some false ∧
    (1000 : Int) ≤ ((statAfter exStatfs exWorker.dstDir).Bavail : Int)
      * (statAfter exStatfs exWorker.dstDir).Bsize :=
  selected_volume_has_space exStatfs "/tmp/a.plot" "a.plot" 1000 (initState exDirs)
    (initState exDirs).DstPathMap exWorker (by decide) (List.Perm.refl _) (by decide) (by decide)
    (by decide) (by decide)

theorem slot_available (s : State) (hinv : Inv s) (p : String)
    (hfree : mapGet s.DstPathMap p = some false) : s.threadChan.len < s.threadChan.cap := by
  have hkey : p ∈ mapKeys s.DstPathMap := by
    rw [← mapGet_isSome_iff, hfree]
    rfl
  have hsub : s.workers.map Worker.dstDir ⊆ (mapKeys s.DstPathMap).erase p := by
    intro q hq
    have hq1 := workers_targets_subset s hinv hq
    have hne : q ≠ p := by
      intro e
      subst e
      have := (hinv.busyIff q).mpr hq
      rw [hfree] at this
      simp at this
    exact (List.mem_erase_of_ne hne).mpr hq1
  have hle := (List.subperm_of_subset hinv.dstNodup hsub).length_le
  rw [List.length_erase_of_mem hkey] at hle
  have hpos : 0 < (mapKeys s.DstPathMap).length := List.length_pos_of_mem hkey
  rw [hinv.slots, hinv.capEq]
  simp only [List.length_map, mapKeys] at hle hpos
  omega

theorem selectLoop_find (Statfs : String → Option Statfs_t) (singlePath name : String)
    (size : Int) (st : State) (ch : Chan) (order : List (String × Bool))
    (hs : st.threadChan.trySend = some ch) :
    selectLoop Statfs singlePath name size st order =
      match order.find? (qualifies Statfs size) with
      | some kv => dispatch st ch singlePath kv.1 name
      | none => st := by
  induction order with
  | nil => rfl
  | cons kv rest ih =>
    obtain ⟨key, value⟩ := kv
    by_cases hk : key = ""
    · simp only [selectLoop, hk, if_true, List.find?_cons, qualifies, ne_eq, not_true_eq_false,
        decide_False, Bool.false_and]
      exact ih
    · cases value with
      | true =>
        simp only [selectLoop, hk, if_false, Bool.not_true, Bool.false_eq_true, List.find?_cons,
          qualifies, Bool.and_false, Bool.false_and]
        exact ih
      | false =>
        by_cases hf : freeBytes (statAfter Statfs key) < toUint64 size
        · have hf2 : ¬ toUint64 size ≤ freeBytes (statAfter Statfs key) := Nat.not_le_of_lt hf
          simp only [selectLoop, hk, if_false, Bool.not_false, if_true, hf, List.find?_cons,
            qualifies, hf2, decide_False, Bool.and_false]
          exact ih
        · have hf2 : toUint64 size ≤ freeBytes (statAfter Statfs key) := Nat.le_of_not_lt hf
          simp [selectLoop, hk, hf, List.find?_cons, qualifies, hf2, hs]

theorem selectLoop_none (Statfs : String → Option Statfs_t) (singlePath name : String)
    (size : Int) (st : State) (order : List (String × Bool))
    (hnone : order.find? (qualifies Statfs size) = none) :
    selectLoop Statfs singlePath name size st order = st := by
  induction order with
  | nil => rfl
  | cons kv rest ih =>
    obtain ⟨key, value⟩ := kv
    rw [List.find?_cons] at hnone
    by_cases hq : qualifies Statfs size (key, value) = true
    · simp [hq] at hnone
    · have hq2 : qualifies Statfs size (key, value) = false := by simpa using hq
      rw [hq2] at hnone
      have hrest := ih hnone
      by_cases hk : key = ""
      · simp only [selectLoop, hk, if_true]
        exact hrest
      · cases value with
        | true =>
          simp only [selectLoop, hk, if_false, Bool.not_true, Bool.false_eq_true]
          exact hrest
        | false =>
          by_cases hf : freeBytes (statAfter Statfs key) < toUint64 size
          · simp only [selectLoop, hk, if_false, Bool.not_false, if_true, hf]
            exact hrest
          · have hf2 : toUint64 size ≤ freeBytes (statAfter Statfs key) := Nat.le_of_not_lt hf
            simp [qualifies, hk, hf2] at hq2

/-- C10: in every reachable state, for every regular file whose name passes the
suffix test and is not in the in-flight set, and every order in which the loop
goes through the registry: if `p` is the first volume in that order with a
non-empty path, not busy and with computed free bytes at least the size of the
file, the callback starts exactly one worker, for `p`, marks `p` busy, adds the
name to the in-flight set and puts one token in `threadChan` (a slot is free,
so the `default` branch is not taken); if no volume qualifies, the callback
leaves the state as it is. -/
theorem selection_first_fit (finalDirs : List String) (s : State)
    (h : Reachable finalDirs s) (Statfs : String → Option Statfs_t)
    (order : List (String × Bool)) (path : String) (info : FileInfo) (err : Option String)
    (hperm : order.Perm s.DstPathMap) (hreg : info.kind = FileKind.regular)
    (hname : suffixTest info.Name = true) (hfresh : info.Name ∉ s.onWorkingSrcMap) :
    match order.find? (qualifies Statfs info.Size) with
    | some kv =>
      (walkFn Statfs order s path (some info) err).1 =
        { DstPathMap := mapSet s.DstPathMap kv.1 true
          onWorkingSrcMap := info.Name :: s.onWorkingSrcMap
          threadChan := { cap := s.threadChan.cap, len := s.threadChan.len + 1 }
          workers := { src := path, dst := kv.1 ++ "/" ++ info.Name, dstDir := kv.1,
                       srcName := info.Name } :: s.workers } ∧
      mapGet s.DstPathMap kv.1 = some false ∧
      mapGet (walkFn Statfs order s path (some info) err).1.DstPathMap kv.1 = some true ∧
      s.threadChan.len < s.threadChan.cap
    | none => (walkFn Statfs order s path (some info) err).1 = s := by
  have hinv := reachable_inv finalDirs s h
  have hwalk : (walkFn Statfs order s path (some info) err).1
      = selectLoop Statfs path info.Name info.Size s order := by
    simp [walkFn, hfresh, FileInfo.IsDir, FileInfo.IsRegular, hreg, hname]
  rw [hwalk]
  rcases Option.eq_none_or_eq_some (order.find? (qualifies Statfs info.Size)) with
    hnone | ⟨⟨p, v⟩, hfind⟩
  · rw [hnone]
    exact selectLoop_none Statfs path info.Name info.Size s order hnone
  · have hq := List.find?_some hfind
    have hmem := List.mem_of_find?_eq_some hfind
    simp only [qualifies, Bool.and_eq_true, decide_eq_true_eq] at hq
    have hv : v = false := by simpa using hq.1.2
    subst hv
    have hfree : mapGet s.DstPathMap p = some false :=
      mapGet_of_mem _ _ _ hinv.keysNodup (hperm.mem_iff.mp hmem)
    have hslot := slot_available s hinv p hfree
    have hs : s.threadChan.trySend
        = some { cap := s.threadChan.cap, len := s.threadChan.len + 1 } := by
      simp [Chan.trySend, hslot]
    rw [selectLoop_find Statfs path info.Name info.Size s _ order hs, hfind]
    refine ⟨?_, hfree, ?_, hslot⟩
    · simp [dispatch, setInsert, hfresh]
    · simp [dispatch, mapGet_mapSet]

theorem selection_first_fit_witness :
    match List.find? (qualifies exStatfs exInfo.Size) (initState exDirs).DstPathMap with
    | some kv =>
      (walkFn exStatfs (initState exDirs).DstPathMap (initState exDirs) "/tmp/a.plot"
          (some exInfo) none).1 =
        { DstPathMap := mapSet (initState exDirs).DstPathMap kv.1 true
          onWorkingSrcMap := exInfo.Name :: (initState exDirs).onWorkingSrcMap
          threadChan := { cap := (initState exDirs).threadChan.cap,
                          len := (initState exDirs).threadChan.len + 1 }
          workers := { src := "/tmp/a.plot", dst := kv.1 ++ "/" ++ exInfo.Name, dstDir := kv.1,
                       srcName := exInfo.Name } :: (initState exDirs).workers } ∧
      mapGet (initState exDirs).DstPathMap kv.1 = some false ∧
      mapGet (walkFn exStatfs (initState exDirs).DstPathMap (initState exDirs) "/tmp/a.plot"
          (some exInfo) none).1.DstPathMap kv.1 = some true ∧
      (initState exDirs).threadChan.len < (initState exDirs).threadChan.cap
    | none =>
      (walkFn exStatfs (initState exDirs).DstPathMap (initState exDirs) "/tmp/a.plot"
          (some exInfo) none).1 = initState exDirs :=
  selection_first_fit exDirs (initState exDirs) Reachable.init exStatfs
    (initState exDirs).DstPathMap "/tmp/a.plot" exInfo none (List.Perm.refl _) (by decide)
    (by decide) (by decide)


/-! ## The file system under `myCopy` and `startCopy` -/

theorem lookupEntry_lt_freshIno (es : List (String × Nat)) (k : String) (i : Nat)
    (h : lookupEntry es k = some i) : i < freshIno es := by
  induction es with
  | nil => simp [lookupEntry] at h
  | cons e rest ih =>
    obtain ⟨k0, i0⟩ := e
    have hfresh : freshIno ((k0, i0) :: rest) = max i0 (freshIno rest - 1) + 1 := by
      simp [freshIno]
    rw [hfresh]
    by_cases hk : k0 = k
    · simp only [lookupEntry, hk, if_true, Option.some.injEq] at h
      subst h
      have := Nat.le_max_left i0 (freshIno rest - 1)
      omega
    · simp only [lookupEntry, hk, if_false] at h
      have h1 := ih h
      have := Nat.le_max_right i0 (freshIno rest - 1)
      omega

theorem lookupEntry_filter (es : List (String × Nat)) (k q : String) :
    lookupEntry (es.filter (fun e => !decide (e.1 = k))) q
      = if q = k then none else lookupEntry es q := by
  induction es with
  | nil => simp [lookupEntry]
  | cons e rest ih =>
    obtain ⟨k0, i0⟩ := e
    by_cases hk : k0 = k
    · have hf : List.filter (fun e => !decide (e.1 = k)) ((k0, i0) :: rest)
          = List.filter (fun e => !decide (e.1 = k)) rest := by
        simp [List.filter_cons, hk]
      rw [hf, ih]
      by_cases hq : q = k
      · simp [hq]
      · have hq2 : ¬ k0 = q := fun e => hq (e.symm.trans hk)
        simp [hq, hq2, lookupEntry]
    · have hf : List.filter (fun e => !decide (e.1 = k)) ((k0, i0) :: rest)
          = (k0, i0) :: List.filter (fun e => !decide (e.1 = k)) rest := by
        simp [List.filter_cons, hk]
      rw [hf]
      simp only [lookupEntry, ih]
      by_cases hq : q = k
      · simp [hq, hk]
      · simp [hq]

theorem nodeAt_unlink_self (fs : FileSystem) (p : String) : (unlink fs p).nodeAt p = none := by
  simp [FileSystem.nodeAt, FileSystem.resolve, unlink, lookupEntry_filter]

theorem nodeAt_unlink_other (fs : FileSystem) (p q : String) (h : fs.canon q ≠ fs.canon p) :
    (unlink fs p).nodeAt q = fs.nodeAt q := by
  simp [FileSystem.nodeAt, FileSystem.resolve, unlink, lookupEntry_filter, h]

theorem osRemove_canon (fs : FileSystem) (p : String) : (osRemove fs p).canon = fs.canon := by
  unfold osRemove
  cases hfp : fs.nodeAt p with
  | none => rfl
  | some n =>
    cases n with
    | file c => rfl
    | dir b => cases b <;> rfl

theorem osRemove_self (fs : FileSystem) (p : String)
    (h : fs.nodeAt p ≠ some (Node.dir false)) : (osRemove fs p).nodeAt p = none := by
  unfold osRemove
  cases hfp : fs.nodeAt p with
  | none => exact hfp
  | some n =>
    cases n with
    | file c => exact nodeAt_unlink_self fs p
    | dir b =>
      cases b with
      | true => exact nodeAt_unlink_self fs p
      | false => exact absurd hfp h

theorem osRemove_other (fs : FileSystem) (p q : String) (h : fs.canon q ≠ fs.canon p) :
    (osRemove fs p).nodeAt q = fs.nodeAt q := by
  unfold osRemove
  cases hfp : fs.nodeAt p with
  | none => rfl
  | some n =>
    cases n with
    | file c => exact nodeAt_unlink_other fs p q h
    | dir b =>
      cases b with
      | true => exact nodeAt_unlink_other fs p q h
      | false => rfl

theorem writesOnly_refl (fs : FileSystem) (di : Nat) (hd : ∃ c, fs.inodes di = Node.file c) :
    writesOnly fs fs di :=
  ⟨rfl, rfl, fun _ _ => rfl, hd⟩

theorem writesOnly_trans (fs fs1 fs2 : FileSystem) (di : Nat) (h1 : writesOnly fs fs1 di)
    (h2 : writesOnly fs1 fs2 di) : writesOnly fs fs2 di :=
  ⟨h2.1.trans h1.1, h2.2.1.trans h1.2.1,
   fun j hj => (h2.2.2.1 j hj).trans (h1.2.2.1 j hj), h2.2.2.2⟩

theorem writeAt_writesOnly (fs : FileSystem) (di off : Nat) (chunk : List UInt8)
    (hd : ∃ c, fs.inodes di = Node.file c) : writesOnly fs (writeAt fs di off chunk) di := by
  obtain ⟨c, hc⟩ := hd
  unfold writeAt
  rw [hc]
  refine ⟨rfl, rfl, ?_, ?_⟩
  · intro j hj
    simp [setInode, hj]
  · exact ⟨_, if_pos rfl⟩

theorem copyLoop_writesOnly (env : CopyEnv) (si di : Nat) (fuel i off : Nat) (fs : FileSystem)
    (err : Option CopyError) (fs1 : FileSystem)
    (hd : ∃ c, fs.inodes di = Node.file c)
    (h : copyLoop env si di fuel i off fs = some (err, fs1)) : writesOnly fs fs1 di := by
  induction fuel generalizing i off fs with
  | zero => simp [copyLoop] at h
  | succ fuel ih =>
    simp only [copyLoop] at h
    split at h
    · simp only [Option.some.injEq, Prod.mk.injEq] at h
      rw [← h.2]
      exact writesOnly_refl fs di hd
    · split at h
      · simp only [Option.some.injEq, Prod.mk.injEq] at h
        rw [← h.2]
        exact writesOnly_refl fs di hd
      · split at h
        · simp only [Option.some.injEq, Prod.mk.injEq] at h
          rw [← h.2]
          exact writesOnly_refl fs di hd
        · split at h
          · simp only [Option.some.injEq, Prod.mk.injEq] at h
            rw [← h.2]
            exact writeAt_writesOnly fs di off _ hd
          · have hw := writeAt_writesOnly fs di off
              (List.map (env.stored i)
                (List.take BufferSize (List.drop off (inodeContent fs si)))) hd
            exact writesOnly_trans _ _ _ di hw (ih _ _ _ hw.2.2.2 h)

theorem inodeContent_writeAt_ne (fs : FileSystem) (si di off : Nat) (chunk : List UInt8)
    (h : si ≠ di) : inodeContent (writeAt fs di off chunk) si = inodeContent fs si := by
  unfold writeAt
  cases hfd : fs.inodes di with
  | file c => simp [inodeContent, setInode, h]
  | dir b => rfl

theorem copyLoop_isSome_of_ne (env : CopyEnv) (si di : Nat) (hne : si ≠ di)
    (fuel i off : Nat) (fs : FileSystem) (hfuel : (inodeContent fs si).length - off < fuel) :
    (copyLoop env si di fuel i off fs).isSome = true := by
  induction fuel generalizing i off fs with
  | zero => omega
  | succ fuel ih =>
    simp only [copyLoop]
    split
    · rfl
    · split
      · rfl
      · split
        · rfl
        · rename_i hlen
          split
          · rfl
          · apply ih
            rw [inodeContent_writeAt_ne _ _ _ _ _ hne]
            simp only [List.length_take, List.length_drop] at hlen ⊢
            omega

theorem copyLoop_isSome_of_empty (env : CopyEnv) (si di : Nat) (fuel i off : Nat)
    (fs : FileSystem) (hc : inodeContent fs si = []) :
    (copyLoop env si di (fuel + 1) i off fs).isSome = true := by
  simp only [copyLoop]
  split
  · rfl
  · split
    · rfl
    · simp [hc]

theorem osCreate_spec (env : CopyEnv) (fs : FileSystem) (dst : String) (di : Nat)
    (fs0 : FileSystem) (h : osCreate env fs dst = some (di, fs0)) :
    fs0.canon = fs.canon ∧ fs0.resolve dst = some di ∧
    (∀ q, fs.canon q ≠ fs.canon dst → fs0.resolve q = fs.resolve q) ∧
    (∀ j, j ≠ di → fs0.inodes j = fs.inodes j) ∧
    fs0.inodes di = Node.file [] ∧
    (fs.resolve dst = some di ∨ ∀ q i, fs.resolve q = some i → i ≠ di) := by
  unfold osCreate at h
  by_cases hce : env.createErr = true
  · simp [hce] at h
  · simp only [hce, Bool.false_eq_true, if_false] at h
    cases hr : fs.resolve dst with
    | some i0 =>
      rw [hr] at h
      cases hn : fs.inodes i0 with
      | dir b => simp [hn] at h
      | file c =>
        simp only [hn, Option.some.injEq, Prod.mk.injEq] at h
        obtain ⟨hi, hfs⟩ := h
        subst hi
        subst hfs
        refine ⟨rfl, hr, fun _ _ => rfl, ?_, ?_, Or.inl rfl⟩
        · intro j hj
          simp [setInode, hj]
        · simp [setInode]
    | none =>
      rw [hr] at h
      simp only [Option.some.injEq, Prod.mk.injEq] at h
      obtain ⟨hi, hfs⟩ := h
      subst hi
      subst hfs
      refine ⟨rfl, ?_, ?_, ?_, ?_, Or.inr ?_⟩
      · simp [FileSystem.resolve, lookupEntry]
      · intro q hq
        have hq2 : ¬ fs.canon dst = fs.canon q := fun e => hq e.symm
        simp [FileSystem.resolve, lookupEntry, hq2]
      · intro j hj
        simp [hj]
      · simp
      · intro q i hqi
        exact Nat.ne_of_lt (lookupEntry_lt_freshIno _ _ _ hqi)

theorem osCreate_inodeContent (env : CopyEnv) (fs : FileSystem) (dst : String) (si di : Nat)
    (fs0 : FileSystem) (h : osCreate env fs dst = some (di, fs0)) :
    (si = di → inodeContent fs0 si = []) ∧
    (si ≠ di → inodeContent fs0 si = inodeContent fs si) := by
  obtain ⟨_, _, _, hframe, hdi, _⟩ := osCreate_spec env fs dst di fs0 h
  constructor
  · intro e
    subst e
    simp [inodeContent, hdi]
  · intro hne
    simp [inodeContent, hframe si hne]

/-- The model of `myCopy` never runs out of iterations: it always returns. -/
theorem myCopy_isSome (env : CopyEnv) (fs : FileSystem) (src dst : String) :
    (myCopy env fs src dst).isSome = true := by
  unfold myCopy
  cases hsrc : fs.resolve src with
  | none => rfl
  | some si =>
    simp only []
    by_cases hstat : env.statErr = true
    · simp [hstat]
    · simp only [hstat, Bool.false_eq_true, if_false]
      cases hnode : fs.inodes si with
      | dir b => rfl
      | file c =>
        simp only []
        by_cases hopen : env.openErr = true
        · simp [hopen]
        · simp only [hopen, Bool.false_eq_true, if_false]
          cases hcreate : osCreate env fs dst with
          | none => rfl
          | some r =>
            obtain ⟨di, fs0⟩ := r
            simp only []
            have hsome : (copyLoop env si di (c.length + 1) 0 0 fs0).isSome = true := by
              obtain ⟨h1, h2⟩ := osCreate_inodeContent env fs dst si di fs0 hcreate
              by_cases hne : si = di
              · exact copyLoop_isSome_of_empty env si di _ 0 0 fs0 (h1 hne)
              · apply copyLoop_isSome_of_ne env si di hne
                rw [h2 hne]
                have : inodeContent fs si = c := by simp [inodeContent, hnode]
                rw [this]
                omega
            obtain ⟨⟨e1, f1⟩, hl⟩ := Option.isSome_iff_exists.mp hsome
            rw [hl]
            rfl

theorem myCopy_spec (env : CopyEnv) (fs : FileSystem) (src dst : String)
    (err : Option CopyError) (fs1 : FileSystem)
    (h : myCopy env fs src dst = some (err, fs1)) :
    (fs1 = fs ∧ err ≠ none) ∨
    ∃ si c di fs0, fs.resolve src = some si ∧ fs.inodes si = Node.file c ∧
      osCreate env fs dst = some (di, fs0) ∧ writesOnly fs0 fs1 di := by
  unfold myCopy at h
  cases hsrc : fs.resolve src with
  | none =>
    simp only [hsrc, Option.some.injEq, Prod.mk.injEq] at h
    exact Or.inl ⟨h.2.symm, by rw [← h.1]; simp⟩
  | some si =>
    simp only [hsrc] at h
    by_cases hstat : env.statErr = true
    · simp only [hstat, if_true, Option.some.injEq, Prod.mk.injEq] at h
      exact Or.inl ⟨h.2.symm, by rw [← h.1]; simp⟩
    · simp only [hstat, Bool.false_eq_true, if_false] at h
      cases hnode : fs.inodes si with
      | dir b =>
        simp only [hnode, Option.some.injEq, Prod.mk.injEq] at h
        exact Or.inl ⟨h.2.symm, by rw [← h.1]; simp⟩
      | file c =>
        simp only [hnode] at h
        by_cases hopen : env.openErr = true
        · simp only [hopen, if_true, Option.some.injEq, Prod.mk.injEq] at h
          exact Or.inl ⟨h.2.symm, by rw [← h.1]; simp⟩
        · simp only [hopen, Bool.false_eq_true, if_false] at h
          cases hcreate : osCreate env fs dst with
          | none =>
            simp only [hcreate, Option.some.injEq, Prod.mk.injEq] at h
            exact Or.inl ⟨h.2.symm, by rw [← h.1]; simp⟩
          | some r =>
            obtain ⟨di, fs0⟩ := r
            simp only [hcreate] at h
            cases hloop : copyLoop env si di (c.length + 1) 0 0 fs0 with
            | none => simp [hloop] at h
            | some r1 =>
              obtain ⟨e1, f1⟩ := r1
              simp only [hloop, Option.some.injEq, Prod.mk.injEq] at h
              obtain ⟨_, hf⟩ := h
              subst hf
              obtain ⟨_, _, _, _, hdi, _⟩ := osCreate_spec env fs dst di fs0 hcreate
              exact Or.inr ⟨si, c, di, fs0, rfl, hnode, rfl,
                copyLoop_writesOnly env si di _ _ _ fs0 e1 f1 ⟨[], hdi⟩ hloop⟩

theorem aliased_eq_false (fs : FileSystem) (src dst : String) (h : aliased fs src dst = false) :
    fs.canon src ≠ fs.canon dst ∧ ∀ i, fs.resolve src = some i → fs.resolve dst ≠ some i := by
  simp only [aliased, Bool.or_eq_false_iff, decide_eq_false_iff_not, Bool.and_eq_false_iff] at h
  refine ⟨h.1, ?_⟩
  intro i hi hd
  rcases h.2 with h2 | h2
  · rw [hi] at h2
    simp at h2
  · exact h2 (hi.trans hd.symm)

theorem myCopy_frame (env : CopyEnv) (fs : FileSystem) (src dst : String)
    (err : Option CopyError) (fs1 : FileSystem) (hal : aliased fs src dst = false)
    (h : myCopy env fs src dst = some (err, fs1)) :
    fs1.canon = fs.canon ∧ fs1.nodeAt src = fs.nodeAt src ∧
    (fs1.nodeAt dst = fs.nodeAt dst ∨ ∃ c, fs1.nodeAt dst = some (Node.file c)) ∧
    (err = none → ∃ c, fs.nodeAt src = some (Node.file c)) := by
  obtain ⟨hentry, hlink⟩ := aliased_eq_false fs src dst hal
  rcases myCopy_spec env fs src dst err fs1 h with ⟨hfs, herr⟩ | ⟨si, c, di, fs0, hsi, hc, hcr, hw⟩
  · subst hfs
    exact ⟨rfl, rfl, Or.inl rfl, fun e => absurd e herr⟩
  · obtain ⟨hcanon0, hdst0, hres0, hino0, _, hdi⟩ := osCreate_spec env fs dst di fs0 hcr
    obtain ⟨hcanon1, hent1, hino1, c1, hc1⟩ := hw
    have hres1 : ∀ q, fs1.resolve q = fs0.resolve q := by
      intro q
      simp [FileSystem.resolve, hcanon1, hent1]
    have hne : si ≠ di := by
      rcases hdi with hd | hd
      · intro e
        subst e
        exact hlink si hsi hd
      · exact hd src si hsi
    have hsrc1 : fs1.resolve src = some si := by
      rw [hres1, hres0 src hentry, hsi]
    refine ⟨hcanon1.trans hcanon0, ?_, Or.inr ⟨c1, ?_⟩, fun _ => ⟨c, ?_⟩⟩
    · simp [FileSystem.nodeAt, hsrc1, hsi, hino1 si hne, hino0 si hne]
    · simp [FileSystem.nodeAt, hres1, hdst0, hc1]
    · simp [FileSystem.nodeAt, hsi, hc]

/-! ## The worker -/

/-- C5: `startCopy` returns exactly when `threadChan` holds a token, whatever
the copy and the equality check do; and when it returns, the registry maps
`dstDir` to not busy, `srcName` is not in the in-flight set, one token has been
taken out of `threadChan`, and the flag of every other volume and the
membership of every other name are as before. -/
theorem startCopy_releases (env : CopyEnv) (fs : FileSystem) (st : State)
    (src dst dstDir srcName : String) :
    ((startCopy env fs st src dst dstDir srcName).isSome = true ↔ 0 < st.threadChan.len) ∧
    ∀ st1, (startCopy env fs st src dst dstDir srcName).map Prod.snd = some st1 →
      mapGet st1.DstPathMap dstDir = some false ∧
      srcName ∉ st1.onWorkingSrcMap ∧
      st1.threadChan.len + 1 = st.threadChan.len ∧
      st1.threadChan.cap = st.threadChan.cap ∧
      (∀ p, p ≠ dstDir → mapGet st1.DstPathMap p = mapGet st.DstPathMap p) ∧
      (∀ n, n ≠ srcName → (n ∈ st1.onWorkingSrcMap ↔ n ∈ st.onWorkingSrcMap)) := by
  have hcopy := myCopy_isSome env fs src dst
  obtain ⟨⟨err, fs1⟩, hc⟩ := Option.isSome_iff_exists.mp hcopy
  constructor
  · by_cases hl : 0 < st.threadChan.len
    · simp [startCopy, hc, releaseStatus, Chan.recv, hl]
    · simp [startCopy, hc, releaseStatus, Chan.recv, hl]
  · intro st1 hret
    cases hrel : releaseStatus st dstDir srcName with
    | none => simp [startCopy, hc, hrel] at hret
    | some st2 =>
      simp only [startCopy, hc, hrel, Option.map_some', Option.some.injEq] at hret
      subst hret
      obtain ⟨hpos, heq⟩ := releaseStatus_eq_some _ _ _ _ hrel
      subst heq
      refine ⟨?_, ?_, ?_, rfl, ?_, ?_⟩
      · simp [mapGet_mapSet]
      · simp [mem_setDelete]
      · simp only
        omega
      · intro p hp
        simp [mapGet_mapSet, hp]
      · intro n hn
        simp [mem_setDelete, hn]

theorem startCopy_releases_witness :
    (startCopy exEnv exFs exState1 "/tmp/a.plot" "/mnt/d1/a.plot" "/mnt/d1" "a.plot").map
      Prod.snd = some exState2 ∧
    mapGet exState2.DstPathMap "/mnt/d1" = some false ∧
    "a.plot" ∉ exState2.onWorkingSrcMap ∧
    exState2.threadChan.len + 1 = exState1.threadChan.len ∧
    mapGet exState2.DstPathMap "/mnt/d2" = mapGet exState1.DstPathMap "/mnt/d2" ∧
    ("b.plot" ∈ exState2.onWorkingSrcMap ↔ "b.plot" ∈ exState1.onWorkingSrcMap) :=
  have h := (startCopy_releases exEnv exFs exState1 "/tmp/a.plot" "/mnt/d1/a.plot" "/mnt/d1"
    "a.plot").2 exState2 (by decide)
  ⟨by decide, h.1, h.2.1, h.2.2.1, h.2.2.2.2.1 "/mnt/d2" (by decide),
    h.2.2.2.2.2 "b.plot" (by decide)⟩

theorem cleanup_of_startCopy (env : CopyEnv) (fs : FileSystem) (st : State)
    (src dst dstDir srcName : String) (err : Option CopyError) (fs1 fs2 : FileSystem)
    (st2 : State) (hcopy : myCopy env fs src dst = some (err, fs1))
    (hret : startCopy env fs st src dst dstDir srcName = some (fs2, st2)) :
    fs2 = cleanup fs1 err src dst := by
  unfold startCopy at hret
  rw [hcopy] at hret
  cases hrel : releaseStatus st dstDir srcName with
  | none => simp [hrel] at hret
  | some st1 =>
    simp only [hrel, Option.some.injEq, Prod.mk.injEq] at hret
    exact hret.1.symm

/-- C6, amended: for every file system and every two paths `src` and `dst` that
are not aliases (they denote different directory entries and do not lead to the
same file), if `myCopy` returns no error and the equality check reports the
files equal, then after `startCopy` returns `src` does not exist and `dst` is a
regular file with the bytes `src` had before the call. -/
theorem transfer_success_unaliased (env : CopyEnv) (fs : FileSystem) (st : State)
    (src dst dstDir srcName : String) (fs1 fs2 : FileSystem) (st2 : State)
    (hal : aliased fs src dst = false)
    (hcopy : myCopy env fs src dst = some (none, fs1))
    (hequal : isEqualFile fs1 src dst = true)
    (hret : startCopy env fs st src dst dstDir srcName = some (fs2, st2)) :
    fs2.nodeAt src = none ∧
    ∃ c, fs.nodeAt src = some (Node.file c) ∧ fs2.nodeAt dst = some (Node.file c) := by
  have hfs2 := cleanup_of_startCopy env fs st src dst dstDir srcName none fs1 fs2 st2 hcopy hret
  obtain ⟨hcanon, hsrc1, _, _⟩ := myCopy_frame env fs src dst none fs1 hal hcopy
  obtain ⟨hentry, _⟩ := aliased_eq_false fs src dst hal
  simp only [cleanup, hequal, if_true] at hfs2
  subst hfs2
  unfold isEqualFile at hequal
  cases hs : fs1.nodeAt src with
  | none => simp [hs] at hequal
  | some ns =>
    cases ns with
    | dir b => simp [hs] at hequal
    | file a =>
      cases hd : fs1.nodeAt dst with
      | none => simp [hs, hd] at hequal
      | some nd =>
        cases nd with
        | dir b => simp [hs, hd] at hequal
        | file b =>
          simp only [hs, hd, decide_eq_true_eq] at hequal
          subst hequal
          refine ⟨?_, a, ?_, ?_⟩
          · apply osRemove_self
            rw [hs]
            simp
          · rw [← hsrc1, hs]
          · rw [osRemove_other fs1 src dst (by rw [hcanon]; exact Ne.symm hentry), hd]

theorem transfer_success_unaliased_witness :
    (cleanup exFsCopied none "/tmp/a.plot" "/mnt/d1/a.plot").nodeAt "/tmp/a.plot" = none ∧
    ∃ c, exFs.nodeAt "/tmp/a.plot" = some (Node.file c) ∧
      (cleanup exFsCopied none "/tmp/a.plot" "/mnt/d1/a.plot").nodeAt "/mnt/d1/a.plot"
        = some (Node.file c) :=
  transfer_success_unaliased exEnv exFs exState1 "/tmp/a.plot" "/mnt/d1/a.plot" "/mnt/d1"
    "a.plot" exFsCopied (cleanup exFsCopied none "/tmp/a.plot" "/mnt/d1/a.plot") exState2
    (by decide) rfl (by decide) rfl

/-- C6 as stated fails when `dst` is an alias of `src`. With the volume written
`/mnt/d1/` the callback dispatches `/mnt/d1/a.plot` to `/mnt/d1//a.plot`, two
strings for one directory entry: `myCopy` truncates the file and returns no
error, the equality check compares the file with itself, and `os.Remove(src)`
removes the entry, so `dst` does not exist afterwards. When `dst` is a hard link
of `src`, `dst` is left with no bytes instead of the three `src` had. -/
theorem transfer_success_aliased_counterexample :
    (exStateNested.workers =
      [{ src := "/mnt/d1/a.plot", dst := "/mnt/d1//a.plot", dstDir := "/mnt/d1/",
         srcName := "a.plot" }] ∧
     exFsNested.nodeAt "/mnt/d1/a.plot" = some (Node.file [1, 2, 3]) ∧
     (myCopy exEnv exFsNested "/mnt/d1/a.plot" "/mnt/d1//a.plot").map Prod.fst = some none ∧
     (myCopy exEnv exFsNested "/mnt/d1/a.plot" "/mnt/d1//a.plot").map
       (fun r => isEqualFile r.2 "/mnt/d1/a.plot" "/mnt/d1//a.plot") = some true ∧
     (startCopy exEnv exFsNested exStateNested "/mnt/d1/a.plot" "/mnt/d1//a.plot" "/mnt/d1/"
       "a.plot").map (fun r => r.1.nodeAt "/mnt/d1//a.plot") = some none) ∧
    (exFsLinked.nodeAt "/tmp/a.plot" = some (Node.file [1, 2, 3]) ∧
     (myCopy exEnv exFsLinked "/tmp/a.plot" "/mnt/d1/a.plot").map Prod.fst = some none ∧
     (myCopy exEnv exFsLinked "/tmp/a.plot" "/mnt/d1/a.plot").map
       (fun r => isEqualFile r.2 "/tmp/a.plot" "/mnt/d1/a.plot") = some true ∧
     (startCopy exEnv exFsLinked exState1 "/tmp/a.plot" "/mnt/d1/a.plot" "/mnt/d1"
       "a.plot").map (fun r => r.1.nodeAt "/mnt/d1/a.plot") = some (some (Node.file []))) := by
  decide

/-- C7, amended: for every file system and every two paths `src` and `dst` that
are not aliases (they denote different directory entries and do not lead to the
same file) and such that `dst` is not a non-empty directory, if `myCopy` returns
an error (the cancellation by `stop` included), or returns no error and the
equality check reports the files not equal, then after `startCopy` returns `dst`
does not exist and `src` is as it was before the call. -/
theorem transfer_failure_unaliased (env : CopyEnv) (fs : FileSystem) (st : State)
    (src dst dstDir srcName : String) (err : Option CopyError) (fs1 fs2 : FileSystem)
    (st2 : State) (hal : aliased fs src dst = false)
    (hdir : fs.nodeAt dst ≠ some (Node.dir false))
    (hcopy : myCopy env fs src dst = some (err, fs1))
    (hfail : err ≠ none ∨ isEqualFile fs1 src dst = false)
    (hret : startCopy env fs st src dst dstDir srcName = some (fs2, st2)) :
    fs2.nodeAt dst = none ∧ fs2.nodeAt src = fs.nodeAt src := by
  have hfs2 := cleanup_of_startCopy env fs st src dst dstDir srcName err fs1 fs2 st2 hcopy hret
  obtain ⟨hcanon, hsrc1, hdst, _⟩ := myCopy_frame env fs src dst err fs1 hal hcopy
  obtain ⟨hentry, _⟩ := aliased_eq_false fs src dst hal
  have hclean : fs2 = osRemove fs1 dst := by
    rw [hfs2]
    cases err with
    | some e => rfl
    | none =>
      rcases hfail with hf | hf
      · exact absurd rfl hf
      · simp [cleanup, hf]
  subst hclean
  constructor
  · apply osRemove_self
    rcases hdst with h1 | ⟨c, h1⟩
    · rw [h1]
      exact hdir
    · rw [h1]
      simp
  · rw [osRemove_other fs1 dst src (by rw [hcanon]; exact hentry)]
    exact hsrc1

theorem transfer_failure_unaliased_witness :
    ((osRemove exFsStopped "/mnt/d1/a.plot").nodeAt "/mnt/d1/a.plot" = none ∧
     (osRemove exFsStopped "/mnt/d1/a.plot").nodeAt "/tmp/a.plot" = exFs.nodeAt "/tmp/a.plot") ∧
    ((osRemove exFsDamaged "/mnt/d1/a.plot").nodeAt "/mnt/d1/a.plot" = none ∧
     (osRemove exFsDamaged "/mnt/d1/a.plot").nodeAt "/tmp/a.plot" = exFs.nodeAt "/tmp/a.plot") :=
  ⟨transfer_failure_unaliased exEnvStopped exFs exState1 "/tmp/a.plot" "/mnt/d1/a.plot" "/mnt/d1"
     "a.plot" (some CopyError.stoppedBySyscall) exFsStopped
     (osRemove exFsStopped "/mnt/d1/a.plot") exState2 (by decide) (by decide) rfl
     (Or.inl (by decide)) rfl,
   transfer_failure_unaliased exEnvDamaged exFs exState1 "/tmp/a.plot" "/mnt/d1/a.plot" "/mnt/d1"
     "a.plot" none exFsDamaged (osRemove exFsDamaged "/mnt/d1/a.plot") exState2 (by decide)
     (by decide) rfl (Or.inr (by decide)) rfl⟩

/-- C7 as stated fails in three ways. When `dst` is a second string for the
directory entry of `src` and `stop` is true, `myCopy` truncates the file and
returns the cancellation error, and `os.Remove(dst)` removes the source. When
`dst` is a hard link of `src`, the source is left with no bytes. When `dst` is a
non-empty directory, `myCopy` fails to create it and `os.Remove(dst)` fails too,
so `dst` still exists. -/
theorem transfer_failure_counterexample :
    (exFsNested.nodeAt "/mnt/d1/a.plot" = some (Node.file [1, 2, 3]) ∧
     (myCopy exEnvStopped exFsNested "/mnt/d1/a.plot" "/mnt/d1//a.plot").map Prod.fst
       = some (some CopyError.stoppedBySyscall) ∧
     (startCopy exEnvStopped exFsNested exStateNested "/mnt/d1/a.plot" "/mnt/d1//a.plot"
       "/mnt/d1/" "a.plot").map (fun r => r.1.nodeAt "/mnt/d1/a.plot") = some none) ∧
    (exFsLinked.nodeAt "/tmp/a.plot" = some (Node.file [1, 2, 3]) ∧
     (myCopy exEnvStopped exFsLinked "/tmp/a.plot" "/mnt/d1/a.plot").map Prod.fst
       = some (some CopyError.stoppedBySyscall) ∧
     (startCopy exEnvStopped exFsLinked exState1 "/tmp/a.plot" "/mnt/d1/a.plot" "/mnt/d1"
       "a.plot").map (fun r => r.1.nodeAt "/tmp/a.plot") = some (some (Node.file []))) ∧
    (exFs.nodeAt "/mnt/d2/a.plot" = some (Node.dir false) ∧
     (myCopy exEnv exFs "/tmp/a.plot" "/mnt/d2/a.plot").map Prod.fst
       = some (some CopyError.createFailed) ∧
     (startCopy exEnv exFs exState1 "/tmp/a.plot" "/mnt/d2/a.plot" "/mnt/d2" "a.plot").map
       (fun r => r.1.nodeAt "/mnt/d2/a.plot") = some (some (Node.dir false))) := by
  decide

/-! ## The stop flag and the round loop -/

theorem mainStep_after_stop (m : MainState) (e : Event) (hstop : m.stop = true)
    (hpc : m.pc ≠ Pc.walking) :
    (mainStep m e).stop = true ∧ (mainStep m e).pc ≠ Pc.walking ∧
    (mainStep m e).st.workers.Sublist m.st.workers := by
  cases e with
  | signal => exact ⟨rfl, hpc, List.Sublist.refl _⟩
  | testStop =>
    by_cases h1 : m.pc = Pc.roundTop
    · have h2 : mainStep m Event.testStop = { m with pc := Pc.draining } := by
        simp [mainStep, h1, hstop]
      rw [h2]
      exact ⟨hstop, by simp, List.Sublist.refl _⟩
    · have h2 : mainStep m Event.testStop = m := by
        simp [mainStep, h1]
      rw [h2]
      exact ⟨hstop, hpc, List.Sublist.refl _⟩
  | visit Statfs order path info err =>
    have h2 : mainStep m (Event.visit Statfs order path info err) = m := by
      simp [mainStep, hpc]
    rw [h2]
    exact ⟨hstop, hpc, List.Sublist.refl _⟩
  | walksDone =>
    have h2 : mainStep m Event.walksDone = m := by
      simp [mainStep, hpc]
    rw [h2]
    exact ⟨hstop, hpc, List.Sublist.refl _⟩
  | waitTick =>
    cases hp : m.pc with
    | waiting i =>
      have h2 : mainStep m Event.waitTick = { m with pc := Pc.roundTop } := by
        simp [mainStep, hp, hstop]
      rw [h2]
      exact ⟨hstop, by simp, List.Sublist.refl _⟩
    | roundTop =>
      have h2 : mainStep m Event.waitTick = m := by
        simp [mainStep, hp]
      rw [h2]
      exact ⟨hstop, hpc, List.Sublist.refl _⟩
    | walking => exact absurd hp hpc
    | draining =>
      have h2 : mainStep m Event.waitTick = m := by
        simp [mainStep, hp]
      rw [h2]
      exact ⟨hstop, hpc, List.Sublist.refl _⟩
    | exited =>
      have h2 : mainStep m Event.waitTick = m := by
        simp [mainStep, hp]
      rw [h2]
      exact ⟨hstop, hpc, List.Sublist.refl _⟩
  | drainPoll =>
    by_cases h1 : m.pc = Pc.draining ∧ workingNum m.st.DstPathMap = 0
    · have h2 : mainStep m Event.drainPoll = { m with pc := Pc.exited } := by
        simp only [mainStep, h1, and_self, if_true]
      rw [h2]
      exact ⟨hstop, by simp, List.Sublist.refl _⟩
    · have h2 : mainStep m Event.drainPoll = m := by
        simp only [mainStep, h1, if_false]
      rw [h2]
      exact ⟨hstop, hpc, List.Sublist.refl _⟩
  | release w =>
    by_cases h1 : w ∈ m.st.workers
    · cases hrel : releaseStatus m.st w.dstDir w.srcName with
      | none =>
        have h2 : mainStep m (Event.release w) = m := by
          simp only [mainStep, h1, if_true, hrel]
        rw [h2]
        exact ⟨hstop, hpc, List.Sublist.refl _⟩
      | some st1 =>
        have h2 : mainStep m (Event.release w)
            = { m with st := { st1 with workers := m.st.workers.erase w } } := by
          simp only [mainStep, h1, if_true, hrel]
        rw [h2]
        exact ⟨hstop, hpc, List.erase_sublist w _⟩
    · have h2 : mainStep m (Event.release w) = m := by
        simp only [mainStep, h1, if_false]
      rw [h2]
      exact ⟨hstop, hpc, List.Sublist.refl _⟩

/-- C8, amended: once the stop flag is true and `main` is not inside the walks of
a round (it is at the test at the top of a round, in `waitingForNextRound`, in
the drain loop, or has returned), no new worker is launched in the rest of the
execution: after any sequence of events the active workers are among those that
were active before, and `main` never enters a walk again. The stop flag is
tested at the top of each round and in `waitingForNextRound`, not inside the
walk callback. -/
theorem no_dispatch_after_stop_seen (m : MainState) (evs : List Event)
    (hstop : m.stop = true) (hpc : m.pc ≠ Pc.walking) :
    (run m evs).st.workers.Sublist m.st.workers ∧ (run m evs).pc ≠ Pc.walking ∧
    (run m evs).stop = true := by
  induction evs generalizing m with
  | nil => exact ⟨List.Sublist.refl _, hpc, hstop⟩
  | cons e rest ih =>
    obtain ⟨h1, h2, h3⟩ := mainStep_after_stop m e hstop hpc
    obtain ⟨h4, h5, h6⟩ := ih (mainStep m e) h1 h2
    exact ⟨h4.trans h3, h5, h6⟩

theorem no_dispatch_after_stop_seen_witness :
    (run (run (mainInit exDirs) [Event.testStop, Event.walksDone, Event.waitTick, Event.signal])
      [Event.waitTick, Event.testStop,
       Event.visit exStatfs (initState exDirs).DstPathMap "/tmp/a.plot" (some exInfo) none,
       Event.drainPoll]).st.workers.Sublist
      (run (mainInit exDirs)
        [Event.testStop, Event.walksDone, Event.waitTick, Event.signal]).st.workers ∧
    (run (run (mainInit exDirs) [Event.testStop, Event.walksDone, Event.waitTick, Event.signal])
      [Event.waitTick, Event.testStop,
       Event.visit exStatfs (initState exDirs).DstPathMap "/tmp/a.plot" (some exInfo) none,
       Event.drainPoll]).pc ≠ Pc.walking ∧
    (run (run (mainInit exDirs) [Event.testStop, Event.walksDone, Event.waitTick, Event.signal])
      [Event.waitTick, Event.testStop,
       Event.visit exStatfs (initState exDirs).DstPathMap "/tmp/a.plot" (some exInfo) none,
       Event.drainPoll]).stop = true :=
  no_dispatch_after_stop_seen
    (run (mainInit exDirs) [Event.testStop, Event.walksDone, Event.waitTick, Event.signal])
    [Event.waitTick, Event.testStop,
     Event.visit exStatfs (initState exDirs).DstPathMap "/tmp/a.plot" (some exInfo) none,
     Event.drainPoll] (by decide) (by decide)

/-- C8 as stated fails: the test at the top of the round sees `stop` false, the
signal then sets `stop`, and the callback, which does not read `stop`, starts a
worker for the next file the walk visits. -/
theorem dispatch_after_stop_counterexample :
    (run (mainInit exDirs) [Event.testStop, Event.signal]).stop = true ∧
    (run (mainInit exDirs) [Event.testStop, Event.signal]).st.workers = [] ∧
    (run (mainInit exDirs) [Event.testStop, Event.signal,
      Event.visit exStatfs (initState exDirs).DstPathMap "/tmp/a.plot" (some exInfo) none]
      ).st.workers = [exWorker] := by
  decide

/-! ## The suffix test -/

theorem splitDot_ne_nil (l : List Char) : splitDot l ≠ [] := by
  cases l with
  | nil => simp [splitDot]
  | cons c cs =>
    simp only [splitDot]
    split
    · simp
    · split <;> simp

theorem splitDot_of_no_dot (l : List Char) (h : '.' ∉ l) : splitDot l = [l] := by
  induction l with
  | nil => rfl
  | cons c cs ih =>
    simp only [List.mem_cons, not_or] at h
    have hc : ¬ c = '.' := fun e => h.1 e.symm
    simp [splitDot, hc, ih h.2]

theorem splitDot_of_dot (l : List Char) (h : '.' ∈ l) :
    ∃ a b t, splitDot l = a :: b :: t := by
  induction l with
  | nil => simp at h
  | cons c cs ih =>
    by_cases hc : c = '.'
    · simp only [splitDot, hc, if_true]
      cases hs : splitDot cs with
      | nil => exact absurd hs (splitDot_ne_nil cs)
      | cons b t => exact ⟨[], b, t, rfl⟩
    · have hcs : '.' ∈ cs := by
        rcases List.mem_cons.mp h with e | e
        · exact absurd e.symm hc
        · exact e
      obtain ⟨a, b, t, hs⟩ := ih hcs
      simp only [splitDot, hc, if_false, hs]
      exact ⟨c :: a, b, t, rfl⟩

theorem getLast_splitDot (l : List Char) : (splitDot l).getLast? = some (lastComponent l) := by
  induction l with
  | nil => rfl
  | cons c cs ih =>
    by_cases hcs : '.' ∈ cs
    · obtain ⟨a, b, t, hs⟩ := splitDot_of_dot cs hcs
      rw [hs] at ih
      by_cases hc : c = '.'
      · simp only [splitDot, hc, if_true, lastComponent, hcs, hs]
        rw [List.getLast?_cons_cons]
        exact ih
      · simp only [splitDot, hc, if_false, lastComponent, hcs, hs, if_true]
        rw [List.getLast?_cons_cons]
        rw [List.getLast?_cons_cons] at ih
        exact ih
    · have hs := splitDot_of_no_dot cs hcs
      by_cases hc : c = '.'
      · simp [splitDot, hc, lastComponent, hcs, hs]
      · simp [splitDot, hc, lastComponent, hcs, hs]

theorem lastComponent_eq_plot_iff (l : List Char) :
    lastComponent l = ['p', 'l', 'o', 't'] ↔
      l = ['p', 'l', 'o', 't'] ∨ ['.', 'p', 'l', 'o', 't'] <:+ l := by
  have hno : '.' ∉ ['p', 'l', 'o', 't'] := by decide
  have hdot : ∀ m : List Char, ['.', 'p', 'l', 'o', 't'] <:+ m → '.' ∈ m := by
    intro m hm
    exact hm.subset (List.mem_cons_self _ _)
  induction l with
  | nil =>
    constructor
    · intro h
      exact absurd h (by decide)
    · rintro (h | h)
      · exact absurd h (by decide)
      · have := h.length_le
        simp at this
  | cons c cs ih =>
    rw [List.suffix_cons_iff]
    by_cases hcs : '.' ∈ cs
    · simp only [lastComponent, hcs, if_true]
      refine Iff.trans ih ?_
      constructor
      · rintro (h | h)
        · rw [h] at hcs
          exact absurd hcs hno
        · exact Or.inr (Or.inr h)
      · rintro (h | h | h)
        · injection h with _ h3
          rw [h3] at hcs
          exact absurd (List.mem_of_mem_tail hcs) hno
        · injection h with _ h3
          rw [← h3] at hcs
          exact absurd hcs hno
        · exact Or.inr h
    · by_cases hc : c = '.'
      · simp only [lastComponent, hcs, if_false, hc, if_true]
        constructor
        · intro h
          right
          left
          rw [h]
        · rintro (h | h | h)
          · injection h with h3 _
            exact absurd h3 (by decide)
          · injection h with _ h3
            exact h3.symm
          · exact absurd (hdot cs h) hcs
      · simp only [lastComponent, hcs, if_false, hc]
        constructor
        · intro h
          exact Or.inl h
        · rintro (h | h | h)
          · exact h
          · injection h with h3 _
            exact absurd h3.symm hc
          · exact absurd (hdot cs h) hcs

theorem suffixTest_iff (name : String) :
    suffixTest name = true ↔ name.data = "plot".data ∨ ".plot".data <:+ name.data := by
  unfold suffixTest
  rw [decide_eq_true_eq, getLast_splitDot, Option.some.injEq]
  exact lastComponent_eq_plot_iff name.data

/-- C9: the suffix test of the walk callback lets a file through exactly when
its name is `plot` or has the suffix `.plot`. The file named `plot` has not the
suffix `.plot`, yet it passes the test and the callback starts a worker for it. -/
theorem suffixTest_accepts_plot :
    suffixTest "plot" = true ∧ ¬ (".plot".data <:+ "plot".data) ∧
    (walkFn exStatfs (initState exDirs).DstPathMap (initState exDirs) "/tmp/plot"
      (some { Name := "plot", Size := 1000, kind := FileKind.regular }) none).1.workers
      = [{ src := "/tmp/plot", dst := "/mnt/d1/plot", dstDir := "/mnt/d1", srcName := "plot" }] ∧
    ∀ name : String,
      suffixTest name = true ↔ name.data = "plot".data ∨ ".plot".data <:+ name.data := by
  refine ⟨by decide, by decide, by decide, suffixTest_iff⟩

end ChiaTransfer

